import Mathlib

/-!
# go-cache: a shallow embedding of the hash cache and its entry lifecycle

Sources embedded: `cache.go` (sentinels), `cache_item.go` (entries),
`hash_cache.go` (the store and its operations).

Modelling conventions.

* `time.Duration` and `UnixNano` readings are `int64`; they are integers here and
  every arithmetic result the code stores or returns goes through `wrap64`.
* Clock readings are nanoseconds since the Unix epoch. `GetExpectedExpiration`
  takes the two readings it makes on its entry, `now1` in `item.expired()` and
  `now2` in `item.expectedExpiration()`. Every other operation is evaluated at
  one reading `now`: each entry it looks at is tested once.
* `interface{}` payloads are `Option α`; `none` is Go's `nil`.
* `map[string]*item` is an association list; a Go map holds a key at most once,
  which is the predicate `WF`. Range order over a Go map is unspecified; the
  list order stands for one admissible order.
* Listeners are named by identifiers; every operation returns, next to its
  result, the cache it leaves and the listener invocations it made, in order.
  Listeners are taken not to re-enter the cache. Locks are not modelled: the
  development is about sequential executions.
-/

namespace GoCache

/-- Go's `time.Duration`, an `int64` count of nanoseconds. -/
abbrev Duration := Int

/-- Two's-complement wrap of an integer into the `int64` range. -/
def wrap64 (x : Int) : Int := (x + 2 ^ 63) % 2 ^ 64 - 2 ^ 63

/-- The `int64` range. -/
def isInt64 (x : Int) : Prop := -(2 ^ 63) ≤ x ∧ x < 2 ^ 63

instance (x : Int) : Decidable (isInt64 x) := by unfold isInt64; infer_instance

/-- `cache.go`: `Expired time.Duration = 0`. -/
def Expired : Duration := 0
/-- `cache.go`: `NoExpiration time.Duration = -1`. -/
def NoExpiration : Duration := -1
/-- `cache.go`: `DefaultExpiration time.Duration = -2`. -/
def DefaultExpiration : Duration := -2

/-- `cache_item.go`: `type item struct { value interface{}; expiration time.Duration }`. -/
structure item (α : Type) where
  value : Option α
  expiration : Duration
deriving DecidableEq, Repr

/-- `cache_item.go`: `newItem`; `now` is the reading of `time.Now()`. -/
def newItem {α : Type} (value : Option α) (expiration defaultExpiration : Duration)
    (now : Int) : item α :=
  if expiration = NoExpiration then
    ⟨value, NoExpiration⟩
  else
    let expiration := if expiration = DefaultExpiration then defaultExpiration else expiration
    ⟨value, wrap64 (now + expiration)⟩

/-- `cache_item.go`: `(i *item) expired()`. -/
def item.expired {α : Type} (i : item α) (now : Int) : Bool :=
  decide (i.expiration ≠ NoExpiration) && decide (now > i.expiration)

/-- `cache_item.go`: `(i *item) expectedExpiration()`. -/
def item.expectedExpiration {α : Type} (i : item α) (now : Int) : Duration :=
  wrap64 (i.expiration - now)

/-- Identifier of a registered callback. -/
abbrev Listener := Nat

/-- Which listener list a callback was invoked from. -/
inductive EventKind where
  | put
  | remove
  | expire
deriving DecidableEq, Repr

/-- One listener invocation `listener(key, value)`. -/
structure Call (α : Type) where
  kind : EventKind
  listener : Listener
  key : String
  value : Option α
deriving DecidableEq, Repr

/-- `hash_cache.go`: `type key_value struct { key string; value interface{} }`. -/
structure key_value (α : Type) where
  key : String
  value : Option α
deriving DecidableEq, Repr

/-- `hash_cache.go`: `type hashCache struct` (the mutex is not modelled). -/
structure hashCache (α : Type) where
  items : List (String × item α)
  defaultExpiration : Duration
  putListeners : List Listener
  removeListeners : List Listener
  expirationListeners : List Listener
deriving DecidableEq, Repr

/-- What a method call yields: its return value, the cache afterwards and the
listener invocations it made, in order. -/
structure Result (α ρ : Type) where
  ret : ρ
  cache : hashCache α
  calls : List (Call α)

/-- Map read `m[key]`. -/
def mapGet {α : Type} : List (String × item α) → String → Option (item α)
  | [], _ => none
  | (k, it) :: rest, key => if k = key then some it else mapGet rest key

/-- Map write `m[key] = it`. -/
def mapSet {α : Type} : List (String × item α) → String → item α → List (String × item α)
  | [], key, it => [(key, it)]
  | (k, old) :: rest, key, it =>
    if k = key then (k, it) :: rest else (k, old) :: mapSet rest key it

/-- Map removal `delete(m, key)`. -/
def mapDelete {α : Type} (m : List (String × item α)) (key : String) :
    List (String × item α) :=
  m.filter (fun p => decide (p.1 ≠ key))

/-- A Go map holds every key at most once. -/
def WF {α : Type} (c : hashCache α) : Prop := (c.items.map Prod.fst).Nodup

instance {α : Type} (c : hashCache α) : Decidable (WF c) := by unfold WF; infer_instance

/-- `hash_cache.go`: `NewHashCache`. The janitor goroutine started for a positive
`cleanupInterval` only ever calls `DeleteExpired`; it is not part of the state. -/
def NewHashCache (α : Type) (defaultExpiration _cleanupInterval : Duration) : hashCache α :=
  ⟨[], defaultExpiration, [], [], []⟩

/-- `hash_cache.go`: `Get`. -/
def Get {α : Type} (c : hashCache α) (now : Int) (key : String) : Result α (Option α × Bool) :=
  match mapGet c.items key with
  | none => ⟨(none, false), c, []⟩
  | some it => if it.expired now then ⟨(none, false), c, []⟩ else ⟨(it.value, true), c, []⟩

/-- `hash_cache.go`: `GetExpiration`. -/
def GetExpiration {α : Type} (c : hashCache α) (key : String) : Result α (Duration × Bool) :=
  match mapGet c.items key with
  | none => ⟨(0, false), c, []⟩
  | some it => ⟨(it.expiration, true), c, []⟩

/-- `hash_cache.go`: `GetExpectedExpiration`. The method reads the clock twice:
`now1` is the reading made by `item.expired()`, `now2` the one made after it by
`item.expectedExpiration()`. -/
def GetExpectedExpiration {α : Type} (c : hashCache α) (now1 now2 : Int) (key : String) :
    Result α (Duration × Bool) :=
  match mapGet c.items key with
  | none => ⟨(0, false), c, []⟩
  | some it =>
    if it.expiration = NoExpiration then ⟨(NoExpiration, true), c, []⟩
    else if it.expired now1 then ⟨(Expired, true), c, []⟩
    else ⟨(it.expectedExpiration now2, true), c, []⟩

/-- `hash_cache.go`: `put`. -/
def put {α : Type} (c : hashCache α) (now : Int) (key : String) (value : Option α)
    (expiration : Duration) : Result α Unit :=
  let c1 : hashCache α :=
    { c with items := mapSet c.items key (newItem value expiration c.defaultExpiration now) }
  if c1.putListeners.length > 0 then
    ⟨(), c1, c1.putListeners.map (fun l => ⟨EventKind.put, l, key, value⟩)⟩
  else
    ⟨(), c1, []⟩

/-- `hash_cache.go`: `Put`. -/
def Put {α : Type} (c : hashCache α) (now : Int) (key : String) (value : Option α)
    (expiration : Duration) : Result α Unit :=
  put c now key value expiration

/-- `hash_cache.go`: `Exists`. -/
def Exists {α : Type} (c : hashCache α) (now : Int) (key : String) : Result α Bool :=
  match mapGet c.items key with
  | none => ⟨false, c, []⟩
  | some it => ⟨!it.expired now, c, []⟩

/-- `hash_cache.go`: `PutIfAbsent`. -/
def PutIfAbsent {α : Type} (c : hashCache α) (now : Int) (key : String) (value : Option α)
    (expiration : Duration) : Result α Bool :=
  let e := Exists c now key
  if e.ret then
    ⟨false, e.cache, e.calls⟩
  else
    let p := put e.cache now key value expiration
    ⟨true, p.cache, e.calls ++ p.calls⟩

/-- `hash_cache.go`: `PutIfExists`. -/
def PutIfExists {α : Type} (c : hashCache α) (now : Int) (key : String) (value : Option α)
    (expiration : Duration) : Result α Bool :=
  let e := Exists c now key
  if !e.ret then
    ⟨false, e.cache, e.calls⟩
  else
    let p := put e.cache now key value expiration
    ⟨true, p.cache, e.calls ++ p.calls⟩

/-- `hash_cache.go`: `Remove`. -/
def Remove {α : Type} (c : hashCache α) (now : Int) (key : String) : Result α Bool :=
  match mapGet c.items key with
  | none => ⟨false, c, []⟩
  | some it =>
    if it.expired now then ⟨false, c, []⟩
    else
      let c1 : hashCache α := { c with items := mapDelete c.items key }
      if c1.removeListeners.length > 0 then
        ⟨true, c1, c1.removeListeners.map (fun l => ⟨EventKind.remove, l, key, it.value⟩)⟩
      else
        ⟨true, c1, []⟩

/-- `hash_cache.go`: `Count`. -/
def Count {α : Type} (c : hashCache α) : Result α Nat :=
  ⟨c.items.length, c, []⟩

/-- The first loop of `ForEach`: the key/value pairs of the entries that are not
expired, in range order. -/
def liveSnapshot {α : Type} (now : Int) : List (String × item α) → List (key_value α)
  | [] => []
  | (key, it) :: rest =>
    if it.expired now then liveSnapshot now rest
    else ⟨key, it.value⟩ :: liveSnapshot now rest

/-- The second loop of `ForEach`: call the consumer on each pair, stop as soon as
it returns `false`. The consumer is a Go closure; its captured variables are the
state `σ` threaded through the calls. -/
def visitLoop {α σ : Type} (consumer : σ → String → Option α → σ × Bool) :
    List (key_value α) → σ → σ
  | [], s => s
  | kv :: rest, s =>
    if (consumer s kv.key kv.value).2 then
      visitLoop consumer rest (consumer s kv.key kv.value).1
    else
      (consumer s kv.key kv.value).1

/-- `hash_cache.go`: `ForEach`; returns the consumer's state after the last call. -/
def ForEach {α σ : Type} (c : hashCache α) (now : Int)
    (consumer : σ → String → Option α → σ × Bool) (s : σ) : Result α σ :=
  ⟨visitLoop consumer (liveSnapshot now c.items) s, c, []⟩

/-- The visitor that records every pair it is called on and always continues. -/
def recordAll {α : Type} (seen : List (String × Option α)) (key : String) (value : Option α) :
    List (String × Option α) × Bool :=
  (seen ++ [(key, value)], true)

/-- `hash_cache.go`: `Keys`. -/
def Keys {α : Type} (c : hashCache α) (now : Int) : Result α (List String) :=
  ForEach c now (fun keys key _ => (keys ++ [key], true)) []

/-- `hash_cache.go`: `Values`. -/
def Values {α : Type} (c : hashCache α) (now : Int) : Result α (List (Option α)) :=
  ForEach c now (fun values _ value => (values ++ [value], true)) []

/-- `hash_cache.go`: `Clear`. -/
def Clear {α : Type} (c : hashCache α) : Result α Unit :=
  ⟨(), { c with items := [] }, []⟩

/-- The first loop of `DeleteExpired`: the key/value pairs of the expired entries,
in range order. -/
def expiredSnapshot {α : Type} (now : Int) : List (String × item α) → List (key_value α)
  | [] => []
  | (key, it) :: rest =>
    if it.expired now then ⟨key, it.value⟩ :: expiredSnapshot now rest
    else expiredSnapshot now rest

/-- The second loop of `DeleteExpired`: `delete(c.items, expired.key)` for each
collected pair. -/
def deleteAll {α : Type} (m : List (String × item α)) (expireds : List (key_value α)) :
    List (String × item α) :=
  expireds.foldl (fun acc e => mapDelete acc e.key) m

/-- `hash_cache.go`: `DeleteExpired`. -/
def DeleteExpired {α : Type} (c : hashCache α) (now : Int) : Result α Unit :=
  let expireds := expiredSnapshot now c.items
  let c1 : hashCache α := { c with items := deleteAll c.items expireds }
  if c1.expirationListeners.length > 0 then
    ⟨(), c1, expireds.flatMap (fun e =>
      c1.expirationListeners.map (fun l => ⟨EventKind.expire, l, e.key, e.value⟩))⟩
  else
    ⟨(), c1, []⟩

/-- `hash_cache.go`: `AddPutListener`. -/
def AddPutListener {α : Type} (c : hashCache α) (listener : Listener) : Result α Unit :=
  ⟨(), { c with putListeners := c.putListeners ++ [listener] }, []⟩

/-- `hash_cache.go`: `AddRemoveListener`. -/
def AddRemoveListener {α : Type} (c : hashCache α) (listener : Listener) : Result α Unit :=
  ⟨(), { c with removeListeners := c.removeListeners ++ [listener] }, []⟩

/-- `hash_cache.go`: `AddExpirationListener`. -/
def AddExpirationListener {α : Type} (c : hashCache α) (listener : Listener) : Result α Unit :=
  ⟨(), { c with expirationListeners := c.expirationListeners ++ [listener] }, []⟩

/-- A visitor instrumented with a log of the calls made to it: it behaves as
`consumer` on the first component of the state and appends the pair it was
called on to the second. -/
def logCalls {α σ : Type} (consumer : σ → String → Option α → σ × Bool)
    (s : σ × List (key_value α)) (key : String) (value : Option α) :
    (σ × List (key_value α)) × Bool :=
  (((consumer s.1 key value).1, s.2 ++ [⟨key, value⟩]), (consumer s.1 key value).2)

/-- A run of `Put(key, value, NoExpiration)` calls made one after the other, each
at its own clock reading: one sequential order of a set of writers. -/
def putAll {α : Type} (c : hashCache α) (writes : List (Int × String × Option α)) :
    hashCache α :=
  writes.foldl (fun acc w => (Put acc w.1 w.2.1 w.2.2 NoExpiration).cache) c

/-! ## Entries -/

theorem expired_eq_true_iff {α : Type} (i : item α) (now : Int) :
    i.expired now = true ↔ i.expiration ≠ NoExpiration ∧ now > i.expiration := by
  simp [item.expired]

theorem expired_eq_false_iff {α : Type} (i : item α) (now : Int) :
    i.expired now = false ↔ i.expiration = NoExpiration ∨ ¬ now > i.expiration := by
  rw [← Bool.not_eq_true, expired_eq_true_iff]
  by_cases h : i.expiration = NoExpiration <;> simp [h]

/-! ## Machine integers -/

theorem wrap64_of_isInt64 {x : Int} (h : isInt64 x) : wrap64 x = x := by
  unfold isInt64 at h
  unfold wrap64
  omega

theorem isInt64_wrap64 (x : Int) : isInt64 (wrap64 x) := by
  unfold isInt64 wrap64
  omega

/-! ## The map -/

theorem mapGet_mapSet_self {α : Type} (m : List (String × item α)) (k : String) (it : item α) :
    mapGet (mapSet m k it) k = some it := by
  induction m with
  | nil => simp [mapSet, mapGet]
  | cons p rest ih =>
    obtain ⟨k1, old⟩ := p
    by_cases h : k1 = k
    · simp [mapSet, mapGet, h]
    · simp [mapSet, mapGet, h, ih]

theorem mapGet_mapSet_ne {α : Type} (m : List (String × item α)) (k k2 : String) (it : item α)
    (h : k2 ≠ k) : mapGet (mapSet m k it) k2 = mapGet m k2 := by
  induction m with
  | nil => simp [mapSet, mapGet, h.symm]
  | cons p rest ih =>
    obtain ⟨k1, old⟩ := p
    by_cases h1 : k1 = k
    · subst h1
      simp [mapSet, mapGet, h.symm]
    · by_cases h2 : k1 = k2
      · subst h2
        simp [mapSet, mapGet, h1]
      · simp [mapSet, mapGet, h1, h2, ih]

theorem mapGet_mapDelete_self {α : Type} (m : List (String × item α)) (k : String) :
    mapGet (mapDelete m k) k = none := by
  induction m with
  | nil => simp [mapDelete, mapGet]
  | cons p rest ih =>
    obtain ⟨k1, old⟩ := p
    by_cases h : k1 = k
    · simpa [mapDelete, h] using ih
    · simpa [mapDelete, h, mapGet] using ih

theorem mapGet_mapDelete_ne {α : Type} (m : List (String × item α)) (k k2 : String)
    (h : k2 ≠ k) : mapGet (mapDelete m k) k2 = mapGet m k2 := by
  induction m with
  | nil => simp [mapDelete, mapGet]
  | cons p rest ih =>
    obtain ⟨k1, old⟩ := p
    by_cases h1 : k1 = k
    · subst h1
      have h3 : ¬ k1 = k2 := fun e => h e.symm
      simpa [mapDelete, mapGet, h3] using ih
    · by_cases h2 : k1 = k2
      · subst h2
        simp [mapDelete, mapGet, h1]
      · simpa [mapDelete, mapGet, h1, h2] using ih

theorem mapGet_eq_none_iff {α : Type} (m : List (String × item α)) (k : String) :
    mapGet m k = none ↔ k ∉ m.map Prod.fst := by
  induction m with
  | nil => simp [mapGet]
  | cons p rest ih =>
    obtain ⟨k1, old⟩ := p
    by_cases h : k1 = k
    · simp [mapGet, h]
    · have h2 : ¬ k = k1 := fun e => h e.symm
      simp [mapGet, h, h2, ih]

theorem mem_of_mapGet {α : Type} (m : List (String × item α)) (k : String) (it : item α)
    (h : mapGet m k = some it) : (k, it) ∈ m := by
  induction m with
  | nil => simp [mapGet] at h
  | cons p rest ih =>
    obtain ⟨k1, old⟩ := p
    by_cases h1 : k1 = k
    · simp [mapGet, h1] at h
      simp [h1, h]
    · simp [mapGet, h1] at h
      exact List.mem_cons_of_mem _ (ih h)

theorem mapGet_of_mem {α : Type} (m : List (String × item α)) (k : String) (it : item α)
    (hn : (m.map Prod.fst).Nodup) (h : (k, it) ∈ m) : mapGet m k = some it := by
  induction m with
  | nil => simp at h
  | cons p rest ih =>
    obtain ⟨k1, old⟩ := p
    simp only [List.map_cons, List.nodup_cons] at hn
    rcases List.mem_cons.1 h with h1 | h1
    · simp only [Prod.mk.injEq] at h1
      simp [mapGet, h1.1, h1.2]
    · have hk : k ∈ rest.map Prod.fst := List.mem_map.2 ⟨(k, it), h1, rfl⟩
      have hne : ¬ k1 = k := fun e => hn.1 (e ▸ hk)
      simp [mapGet, hne, ih hn.2 h1]

theorem mapGet_eq_some_iff {α : Type} (m : List (String × item α)) (k : String) (it : item α)
    (hn : (m.map Prod.fst).Nodup) : mapGet m k = some it ↔ (k, it) ∈ m :=
  ⟨mem_of_mapGet m k it, mapGet_of_mem m k it hn⟩

theorem nodup_keys_filter {α : Type} (m : List (String × item α))
    (f : String × item α → Bool) (hn : (m.map Prod.fst).Nodup) :
    ((m.filter f).map Prod.fst).Nodup :=
  List.Nodup.sublist (List.Sublist.map Prod.fst (List.filter_sublist m)) hn

theorem mapGet_filter {α : Type} (m : List (String × item α)) (f : String × item α → Bool)
    (k : String) (hn : (m.map Prod.fst).Nodup) :
    mapGet (m.filter f) k = (mapGet m k).filter (fun it => f (k, it)) := by
  cases hg : mapGet m k with
  | none =>
    rw [mapGet_eq_none_iff] at hg
    simp only [Option.filter]
    rw [mapGet_eq_none_iff]
    intro hk
    obtain ⟨q, hq, hqk⟩ := List.mem_map.1 hk
    exact hg (List.mem_map.2 ⟨q, (List.mem_filter.1 hq).1, hqk⟩)
  | some it =>
    have hmem := mem_of_mapGet m k it hg
    cases hf : f (k, it) with
    | true =>
      simp only [Option.filter, hf, if_true]
      exact mapGet_of_mem _ k it (nodup_keys_filter m f hn) (List.mem_filter.2 ⟨hmem, hf⟩)
    | false =>
      simp only [Option.filter, hf, Bool.false_eq_true, if_false]
      rw [mapGet_eq_none_iff]
      intro hk
      obtain ⟨q, hq, hqk⟩ := List.mem_map.1 hk
      have hq2 := List.mem_filter.1 hq
      have heq : q = (k, it) :=
        List.inj_on_of_nodup_map hn hq2.1 hmem hqk
      rw [heq, hf] at hq2
      exact Bool.false_ne_true hq2.2

/-! ## The two snapshot loops and the sweep -/

theorem liveSnapshot_eq {α : Type} (now : Int) (m : List (String × item α)) :
    liveSnapshot now m =
      (m.filter (fun p => !p.2.expired now)).map (fun p => ⟨p.1, p.2.value⟩) := by
  induction m with
  | nil => rfl
  | cons p rest ih =>
    obtain ⟨k1, it⟩ := p
    cases he : it.expired now <;> simp [liveSnapshot, he, ih]

theorem expiredSnapshot_eq {α : Type} (now : Int) (m : List (String × item α)) :
    expiredSnapshot now m =
      (m.filter (fun p => p.2.expired now)).map (fun p => ⟨p.1, p.2.value⟩) := by
  induction m with
  | nil => rfl
  | cons p rest ih =>
    obtain ⟨k1, it⟩ := p
    cases he : it.expired now <;> simp [expiredSnapshot, he, ih]

theorem deleteAll_eq_filter {α : Type} (es : List (key_value α)) (m : List (String × item α)) :
    deleteAll m es = m.filter (fun p => decide (p.1 ∉ es.map key_value.key)) := by
  induction es generalizing m with
  | nil => simp [deleteAll]
  | cons e rest ih =>
    have h : deleteAll m (e :: rest) = deleteAll (mapDelete m e.key) rest := rfl
    rw [h, ih, mapDelete, List.filter_filter]
    apply List.filter_congr
    intro p _
    by_cases h1 : p.1 = e.key <;> simp [h1]

theorem mem_expiredSnapshot_keys {α : Type} (now : Int) (m : List (String × item α))
    (hn : (m.map Prod.fst).Nodup) (p : String × item α) (hp : p ∈ m) :
    p.1 ∈ (expiredSnapshot now m).map key_value.key ↔ p.2.expired now = true := by
  rw [expiredSnapshot_eq]
  constructor
  · intro h
    simp only [List.map_map, List.mem_map, List.mem_filter, Function.comp] at h
    obtain ⟨q, ⟨hq, hqe⟩, hqk⟩ := h
    have heq : q = p := List.inj_on_of_nodup_map hn hq hp hqk
    rw [← heq]
    exact hqe
  · intro h
    simp only [List.map_map, List.mem_map, List.mem_filter, Function.comp]
    exact ⟨p, ⟨hp, h⟩, rfl⟩

theorem deleteAll_expiredSnapshot {α : Type} (now : Int) (m : List (String × item α))
    (hn : (m.map Prod.fst).Nodup) :
    deleteAll m (expiredSnapshot now m) = m.filter (fun p => !p.2.expired now) := by
  rw [deleteAll_eq_filter]
  apply List.filter_congr
  intro p hp
  have h := mem_expiredSnapshot_keys now m hn p hp
  cases he : p.2.expired now with
  | true => simpa [he] using h
  | false =>
    rw [he] at h
    simpa using h

theorem DeleteExpired_items {α : Type} (c : hashCache α) (now : Int) (hc : WF c) :
    (DeleteExpired c now).cache.items = c.items.filter (fun p => !p.2.expired now) := by
  have h : (DeleteExpired c now).cache.items =
      deleteAll c.items (expiredSnapshot now c.items) := by
    unfold DeleteExpired
    simp only []
    split <;> rfl
  rw [h, deleteAll_expiredSnapshot now c.items hc]

/-! ## Writes: the cache a `put` leaves -/

theorem put_cache {α : Type} (c : hashCache α) (now : Int) (k : String) (v : Option α)
    (e : Duration) :
    (put c now k v e).cache =
      { c with items := mapSet c.items k (newItem v e c.defaultExpiration now) } := by
  unfold put
  simp only []
  split <;> rfl

theorem put_calls {α : Type} (c : hashCache α) (now : Int) (k : String) (v : Option α)
    (e : Duration) :
    (put c now k v e).calls = c.putListeners.map (fun l => ⟨EventKind.put, l, k, v⟩) := by
  unfold put
  simp only []
  split
  · rfl
  · next h =>
    have h0 : c.putListeners = [] := by
      cases hl : c.putListeners with
      | nil => rfl
      | cons a l => simp [hl] at h
    simp [h0]

theorem Get_of_mapGet {α : Type} (c : hashCache α) (now : Int) (k : String) (it : item α)
    (h : mapGet c.items k = some it) :
    Get c now k =
      if it.expired now then ⟨(none, false), c, []⟩ else ⟨(it.value, true), c, []⟩ := by
  simp [Get, h]

theorem Exists_of_mapGet {α : Type} (c : hashCache α) (now : Int) (k : String) (it : item α)
    (h : mapGet c.items k = some it) :
    Exists c now k = ⟨!it.expired now, c, []⟩ := by
  simp [Exists, h]

/-! ## Enumeration -/

theorem visitLoop_continue {α σ : Type} (f : σ → String → Option α → σ)
    (l : List (key_value α)) (s : σ) :
    visitLoop (fun s key value => (f s key value, true)) l s =
      l.foldl (fun s kv => f s kv.key kv.value) s := by
  induction l generalizing s with
  | nil => rfl
  | cons kv rest ih => simp [visitLoop, ih]

theorem foldl_append_singleton {β γ : Type} (g : β → γ) (l : List β) (s : List γ) :
    l.foldl (fun acc x => acc ++ [g x]) s = s ++ l.map g := by
  induction l generalizing s with
  | nil => simp
  | cons x rest ih => simp [ih]

theorem Keys_ret {α : Type} (c : hashCache α) (now : Int) :
    (Keys c now).ret = (c.items.filter (fun p => !p.2.expired now)).map Prod.fst := by
  unfold Keys ForEach
  simp only []
  rw [visitLoop_continue (fun keys key _ => keys ++ [key]),
    foldl_append_singleton (fun kv : key_value α => kv.key), liveSnapshot_eq]
  simp [Function.comp]

theorem Values_ret {α : Type} (c : hashCache α) (now : Int) :
    (Values c now).ret =
      (c.items.filter (fun p => !p.2.expired now)).map (fun p => p.2.value) := by
  unfold Values ForEach
  simp only []
  rw [visitLoop_continue (fun values _ value => values ++ [value]),
    foldl_append_singleton (fun kv : key_value α => kv.value), liveSnapshot_eq]
  simp [Function.comp]

theorem ForEach_recordAll_ret {α : Type} (c : hashCache α) (now : Int) :
    (ForEach c now recordAll []).ret =
      (c.items.filter (fun p => !p.2.expired now)).map (fun p => (p.1, p.2.value)) := by
  unfold ForEach
  simp only []
  have h : (recordAll : List (String × Option α) → String → Option α → _) =
      fun s key value => ((fun s key value => s ++ [(key, value)]) s key value, true) := rfl
  rw [h, visitLoop_continue (fun s key value => s ++ [(key, value)]),
    foldl_append_singleton (fun kv : key_value α => (kv.key, kv.value)), liveSnapshot_eq]
  simp [Function.comp]

theorem Get_ret_iff {α : Type} (c : hashCache α) (now : Int) (k : String) (v : Option α) :
    (Get c now k).ret = (v, true) ↔
      ∃ it, mapGet c.items k = some it ∧ it.value = v ∧ it.expired now = false := by
  cases hg : mapGet c.items k with
  | none => simp [Get, hg]
  | some it =>
    rw [Get_of_mapGet c now k it hg]
    cases he : it.expired now <;> simp [he]

theorem Get_found_iff {α : Type} (c : hashCache α) (now : Int) (k : String) :
    (Get c now k).ret.2 = true ↔
      ∃ it, mapGet c.items k = some it ∧ it.expired now = false := by
  cases hg : mapGet c.items k with
  | none => simp [Get, hg]
  | some it =>
    rw [Get_of_mapGet c now k it hg]
    cases he : it.expired now <;> simp [he]

theorem Exists_ret_iff {α : Type} (c : hashCache α) (now : Int) (k : String) :
    (Exists c now k).ret = true ↔
      ∃ it, mapGet c.items k = some it ∧ it.expired now = false := by
  cases hg : mapGet c.items k with
  | none => simp [Exists, hg]
  | some it =>
    rw [Exists_of_mapGet c now k it hg]
    simp

theorem length_mapDelete_of_mem {α : Type} (m : List (String × item α)) (k : String)
    (it : item α) (hn : (m.map Prod.fst).Nodup) (h : (k, it) ∈ m) :
    (mapDelete m k).length + 1 = m.length := by
  induction m with
  | nil => simp at h
  | cons p rest ih =>
    obtain ⟨k1, old⟩ := p
    simp only [List.map_cons, List.nodup_cons] at hn
    by_cases h1 : k1 = k
    · subst h1
      have hrest : mapDelete rest k1 = rest := by
        unfold mapDelete
        rw [List.filter_eq_self]
        intro q hq
        have hq1 : q.1 ≠ k1 := fun e => hn.1 (List.mem_map.2 ⟨q, hq, e⟩)
        simp [hq1]
      have hcons : mapDelete ((k1, old) :: rest) k1 = mapDelete rest k1 := by
        simp [mapDelete]
      rw [hcons, hrest]
      rfl
    · have hmem : (k, it) ∈ rest := by
        rcases List.mem_cons.1 h with h2 | h2
        · exact absurd (Prod.mk.inj h2).1.symm h1
        · exact h2
      have hcons : mapDelete ((k1, old) :: rest) k = (k1, old) :: mapDelete rest k := by
        simp [mapDelete, h1]
      rw [hcons, List.length_cons, List.length_cons, ih hn.2 hmem]

theorem Exists_cache {α : Type} (c : hashCache α) (now : Int) (k : String) :
    (Exists c now k).cache = c := by
  cases hg : mapGet c.items k <;> simp [Exists, hg]

theorem Exists_calls {α : Type} (c : hashCache α) (now : Int) (k : String) :
    (Exists c now k).calls = [] := by
  cases hg : mapGet c.items k <;> simp [Exists, hg]

theorem PutIfAbsent_of_visible {α : Type} (c : hashCache α) (now : Int) (k : String)
    (v : Option α) (e : Duration) (h : (Exists c now k).ret = true) :
    PutIfAbsent c now k v e = ⟨false, c, []⟩ := by
  simp [PutIfAbsent, h, Exists_cache, Exists_calls]

theorem PutIfAbsent_of_hidden {α : Type} (c : hashCache α) (now : Int) (k : String)
    (v : Option α) (e : Duration) (h : (Exists c now k).ret = false) :
    PutIfAbsent c now k v e = ⟨true, (put c now k v e).cache, (put c now k v e).calls⟩ := by
  simp [PutIfAbsent, h, Exists_cache, Exists_calls]

theorem PutIfExists_of_visible {α : Type} (c : hashCache α) (now : Int) (k : String)
    (v : Option α) (e : Duration) (h : (Exists c now k).ret = true) :
    PutIfExists c now k v e = ⟨true, (put c now k v e).cache, (put c now k v e).calls⟩ := by
  simp [PutIfExists, h, Exists_cache, Exists_calls]

theorem PutIfExists_of_hidden {α : Type} (c : hashCache α) (now : Int) (k : String)
    (v : Option α) (e : Duration) (h : (Exists c now k).ret = false) :
    PutIfExists c now k v e = ⟨false, c, []⟩ := by
  simp [PutIfExists, h, Exists_cache, Exists_calls]

theorem Remove_of_live {α : Type} (c : hashCache α) (now : Int) (k : String) (it : item α)
    (hit : mapGet c.items k = some it) (he : it.expired now = false) :
    Remove c now k =
      ⟨true, { c with items := mapDelete c.items k },
        c.removeListeners.map (fun l => ⟨EventKind.remove, l, k, it.value⟩)⟩ := by
  cases hl : c.removeListeners with
  | nil => simp [Remove, hit, he, hl]
  | cons a l => simp [Remove, hit, he, hl]

theorem Remove_of_hidden {α : Type} (c : hashCache α) (now : Int) (k : String)
    (h : ∀ it, mapGet c.items k = some it → it.expired now = true) :
    Remove c now k = ⟨false, c, []⟩ := by
  cases hg : mapGet c.items k with
  | none => simp [Remove, hg]
  | some it => simp [Remove, hg, h it hg]

/-! ## Every reachable map holds each key once -/

theorem mem_keys_mapSet {α : Type} (m : List (String × item α)) (k x : String) (it : item α) :
    x ∈ (mapSet m k it).map Prod.fst ↔ x = k ∨ x ∈ m.map Prod.fst := by
  induction m with
  | nil => simp [mapSet]
  | cons p rest ih =>
    obtain ⟨k1, old⟩ := p
    by_cases h : k1 = k
    · subst h
      simp [mapSet]
    · simp only [mapSet, h, if_false, List.map_cons, List.mem_cons, ih]
      tauto

theorem nodup_keys_mapSet {α : Type} (m : List (String × item α)) (k : String) (it : item α)
    (hn : (m.map Prod.fst).Nodup) : ((mapSet m k it).map Prod.fst).Nodup := by
  induction m with
  | nil => simp [mapSet]
  | cons p rest ih =>
    obtain ⟨k1, old⟩ := p
    simp only [List.map_cons, List.nodup_cons] at hn
    by_cases h : k1 = k
    · subst h
      simpa [mapSet] using hn
    · simp only [mapSet, h, if_false, List.map_cons, List.nodup_cons]
      refine ⟨?_, ih hn.2⟩
      rw [mem_keys_mapSet]
      rintro (h1 | h1)
      · exact h h1
      · exact hn.1 h1

theorem WF_NewHashCache (α : Type) (D ci : Duration) : WF (NewHashCache α D ci) := by
  simp [WF, NewHashCache]

theorem WF_put {α : Type} (c : hashCache α) (now : Int) (k : String) (v : Option α)
    (e : Duration) (hwf : WF c) : WF (put c now k v e).cache := by
  rw [put_cache]
  exact nodup_keys_mapSet _ _ _ hwf

theorem WF_Remove {α : Type} (c : hashCache α) (now : Int) (k : String) (hwf : WF c) :
    WF (Remove c now k).cache := by
  cases hg : mapGet c.items k with
  | none =>
    rw [Remove_of_hidden c now k (by simp [hg])]
    exact hwf
  | some it =>
    cases he : it.expired now with
    | true =>
      rw [Remove_of_hidden c now k (by simp [hg, he])]
      exact hwf
    | false =>
      rw [Remove_of_live c now k it hg he]
      exact nodup_keys_filter _ _ hwf

theorem WF_DeleteExpired {α : Type} (c : hashCache α) (now : Int) (hwf : WF c) :
    WF (DeleteExpired c now).cache := by
  unfold WF
  rw [DeleteExpired_items c now hwf]
  exact nodup_keys_filter _ _ hwf

theorem WF_Clear {α : Type} (c : hashCache α) : WF (Clear c).cache := by
  simp [WF, Clear]

/-! ## The listener invocations of a sweep -/

theorem DeleteExpired_calls {α : Type} (c : hashCache α) (now : Int) :
    (DeleteExpired c now).calls =
      (c.items.filter (fun p => p.2.expired now)).flatMap (fun p =>
        c.expirationListeners.map (fun l => ⟨EventKind.expire, l, p.1, p.2.value⟩)) := by
  have h : (DeleteExpired c now).calls =
      (expiredSnapshot now c.items).flatMap (fun e =>
        c.expirationListeners.map (fun l => ⟨EventKind.expire, l, e.key, e.value⟩)) := by
    cases hl : c.expirationListeners with
    | nil => simp [DeleteExpired, hl]
    | cons a l => simp [DeleteExpired, hl]
  rw [h, expiredSnapshot_eq, List.flatMap_map]

theorem DeleteExpired_cache {α : Type} (c : hashCache α) (now : Int) :
    (DeleteExpired c now).cache =
      { c with items := deleteAll c.items (expiredSnapshot now c.items) } := by
  unfold DeleteExpired
  simp only []
  split <;> rfl

theorem expire_calls_other_key {α : Type} (ls : List Listener) (now : Int)
    (m : List (String × item α)) (k : String) (hk : k ∉ m.map Prod.fst) :
    ((m.filter (fun p => p.2.expired now)).flatMap (fun p =>
        ls.map (fun l => (⟨EventKind.expire, l, p.1, p.2.value⟩ : Call α)))).filter
      (fun call => decide (call.key = k)) = [] := by
  rw [List.filter_eq_nil_iff]
  intro call hcall
  obtain ⟨p, hp, hcp⟩ := List.mem_flatMap.1 hcall
  obtain ⟨l, -, rfl⟩ := List.mem_map.1 hcp
  have hp1 : p.1 ≠ k := fun e =>
    hk (List.mem_map.2 ⟨p, (List.mem_filter.1 hp).1, e⟩)
  simpa using hp1

theorem expire_calls_of_key {α : Type} (ls : List Listener) (now : Int)
    (m : List (String × item α)) (k : String) (it : item α)
    (hn : (m.map Prod.fst).Nodup) (hmem : (k, it) ∈ m) (he : it.expired now = true) :
    ((m.filter (fun p => p.2.expired now)).flatMap (fun p =>
        ls.map (fun l => (⟨EventKind.expire, l, p.1, p.2.value⟩ : Call α)))).filter
      (fun call => decide (call.key = k)) =
      ls.map (fun l => ⟨EventKind.expire, l, k, it.value⟩) := by
  induction m with
  | nil => simp at hmem
  | cons p rest ih =>
    obtain ⟨k1, it1⟩ := p
    simp only [List.map_cons, List.nodup_cons] at hn
    rcases List.mem_cons.1 hmem with h1 | h1
    · simp only [Prod.mk.injEq] at h1
      obtain ⟨rfl, rfl⟩ := h1
      have hrest := expire_calls_other_key ls now rest k hn.1
      simp only [List.filter_cons, he, if_true, List.flatMap_cons, List.filter_append, hrest,
        List.append_nil]
      rw [List.filter_eq_self]
      intro call hcall
      obtain ⟨l, -, rfl⟩ := List.mem_map.1 hcall
      simp
    · have hk : k ∈ rest.map Prod.fst := List.mem_map.2 ⟨(k, it), h1, rfl⟩
      have hne : k1 ≠ k := fun e => hn.1 (e ▸ hk)
      have hhead : (ls.map (fun l => (⟨EventKind.expire, l, k1, it1.value⟩ : Call α))).filter
          (fun call => decide (call.key = k)) = [] := by
        rw [List.filter_eq_nil_iff]
        intro call hcall
        obtain ⟨l, -, rfl⟩ := List.mem_map.1 hcall
        simpa using hne
      cases he1 : it1.expired now with
      | true =>
        simp only [List.filter_cons, he1, if_true, List.flatMap_cons, List.filter_append, hhead,
          List.nil_append]
        exact ih hn.2 h1
      | false =>
        simp only [List.filter_cons, he1, Bool.false_eq_true, if_false]
        exact ih hn.2 h1

/-! ## The visitor loop, call by call -/

theorem visitLoop_logCalls_state {α σ : Type} (f : σ → String → Option α → σ × Bool)
    (l : List (key_value α)) (s : σ) (acc : List (key_value α)) :
    (visitLoop (logCalls f) l (s, acc)).1 = visitLoop f l s := by
  induction l generalizing s acc with
  | nil => rfl
  | cons kv rest ih =>
    cases h : (f s kv.key kv.value).2 with
    | true => simp [visitLoop, logCalls, h, ih]
    | false => simp [visitLoop, logCalls, h]

theorem visitLoop_logCalls_prefix {α σ : Type} (f : σ → String → Option α → σ × Bool)
    (l : List (key_value α)) (s : σ) (acc : List (key_value α)) :
    ∃ rest, acc ++ l = (visitLoop (logCalls f) l (s, acc)).2 ++ rest := by
  induction l generalizing s acc with
  | nil => exact ⟨[], rfl⟩
  | cons kv rest ih =>
    cases h : (f s kv.key kv.value).2 with
    | true =>
      obtain ⟨r, hr⟩ := ih (f s kv.key kv.value).1 (acc ++ [kv])
      refine ⟨r, ?_⟩
      simp only [visitLoop, logCalls, h, if_true]
      rw [← hr]
      simp
    | false =>
      refine ⟨rest, ?_⟩
      simp [visitLoop, logCalls, h]

theorem visitLoop_logCalls_stop {α σ : Type} (f : σ → String → Option α → σ × Bool)
    (kv : key_value α) (rest : List (key_value α)) (s : σ) (acc : List (key_value α))
    (h : (f s kv.key kv.value).2 = false) :
    (visitLoop (logCalls f) (kv :: rest) (s, acc)).2 = acc ++ [kv] := by
  simp [visitLoop, logCalls, h]

theorem visitLoop_logCalls_all {α σ : Type} (f : σ → String → Option α → σ × Bool)
    (hf : ∀ s k v, (f s k v).2 = true)
    (l : List (key_value α)) (s : σ) (acc : List (key_value α)) :
    (visitLoop (logCalls f) l (s, acc)).2 = acc ++ l := by
  induction l generalizing s acc with
  | nil => simp [visitLoop]
  | cons kv rest ih =>
    simp only [visitLoop, logCalls, hf, if_true]
    rw [ih]
    simp

theorem visitLoop_logCalls_until {α σ : Type} (f : σ → String → Option α → σ × Bool)
    (q : String → Option α → Bool) (hf : ∀ s k v, (f s k v).2 = q k v)
    (l : List (key_value α)) (s : σ) (acc : List (key_value α)) :
    (visitLoop (logCalls f) l (s, acc)).2 =
      acc ++ (l.takeWhile (fun kv => q kv.key kv.value) ++
        (l.dropWhile (fun kv => q kv.key kv.value)).take 1) := by
  induction l generalizing s acc with
  | nil => simp [visitLoop]
  | cons kv rest ih =>
    cases h : q kv.key kv.value with
    | true =>
      simp only [visitLoop, logCalls, hf, h, if_true, List.takeWhile_cons, List.dropWhile_cons]
      rw [ih]
      simp
    | false =>
      simp [visitLoop, logCalls, hf, h, List.takeWhile_cons, List.dropWhile_cons]

theorem length_mapSet {α : Type} (m : List (String × item α)) (k : String) (it : item α) :
    (mapSet m k it).length = if (mapGet m k).isNone then m.length + 1 else m.length := by
  induction m with
  | nil => simp [mapSet, mapGet]
  | cons p rest ih =>
    obtain ⟨k1, old⟩ := p
    by_cases h : k1 = k
    · simp [mapSet, mapGet, h]
    · simp only [mapSet, mapGet, h, if_false, List.length_cons, ih]
      split <;> rfl

/-! ## Expiration is monotone in time -/

theorem expired_mono {α : Type} (i : item α) (now t : Int) (hle : now ≤ t)
    (h : i.expired now = true) : i.expired t = true := by
  rw [expired_eq_true_iff] at h ⊢
  exact ⟨h.1, lt_of_lt_of_le h.2 hle⟩

theorem filter_live_of_swept {α : Type} (m : List (String × item α)) (now t : Int)
    (hle : now ≤ t) :
    (m.filter (fun p => !p.2.expired now)).filter (fun p => !p.2.expired t) =
      m.filter (fun p => !p.2.expired t) := by
  rw [List.filter_filter]
  apply List.filter_congr
  intro p _
  cases h1 : p.2.expired now with
  | false => simp
  | true => simp [expired_mono p.2 now t hle h1]

theorem filter_expired_of_swept {α : Type} (m : List (String × item α)) (now : Int) :
    (m.filter (fun p => !p.2.expired now)).filter (fun p => p.2.expired now) = [] := by
  rw [List.filter_eq_nil_iff]
  intro p hp
  have h := (List.mem_filter.1 hp).2
  simpa using h

theorem DeleteExpired_of_none_expired {α : Type} (d : hashCache α) (now : Int)
    (h : d.items.filter (fun p => p.2.expired now) = []) :
    (DeleteExpired d now).cache = d ∧ (DeleteExpired d now).calls = [] := by
  have hs : expiredSnapshot now d.items = [] := by
    rw [expiredSnapshot_eq, h]
    rfl
  constructor
  · rw [DeleteExpired_cache, hs]
    cases d
    rfl
  · rw [DeleteExpired_calls, h]
    rfl

/-! ## Writers on distinct keys, in any sequential order -/

theorem Put_NoExpiration_items {α : Type} (c : hashCache α) (now : Int) (k : String)
    (v : Option α) :
    (Put c now k v NoExpiration).cache.items = mapSet c.items k ⟨v, NoExpiration⟩ := by
  rw [Put, put_cache]
  simp [newItem]

theorem mapGet_putAll_other {α : Type} (ws : List (Int × String × Option α))
    (c : hashCache α) (k : String) (hk : k ∉ ws.map (fun w => w.2.1)) :
    mapGet (putAll c ws).items k = mapGet c.items k := by
  induction ws generalizing c with
  | nil => rfl
  | cons w rest ih =>
    simp only [List.map_cons, List.mem_cons, not_or] at hk
    have h : putAll c (w :: rest) = putAll (Put c w.1 w.2.1 w.2.2 NoExpiration).cache rest := rfl
    rw [h, ih _ hk.2, Put_NoExpiration_items]
    exact mapGet_mapSet_ne _ _ _ _ hk.1

theorem mapGet_putAll_mem {α : Type} (ws : List (Int × String × Option α))
    (c : hashCache α) (hn : (ws.map (fun w => w.2.1)).Nodup)
    (w : Int × String × Option α) (hw : w ∈ ws) :
    mapGet (putAll c ws).items w.2.1 = some ⟨w.2.2, NoExpiration⟩ := by
  induction ws generalizing c with
  | nil => simp at hw
  | cons w1 rest ih =>
    simp only [List.map_cons, List.nodup_cons] at hn
    have h : putAll c (w1 :: rest) =
        putAll (Put c w1.1 w1.2.1 w1.2.2 NoExpiration).cache rest := rfl
    rcases List.mem_cons.1 hw with h1 | h1
    · subst h1
      rw [h, mapGet_putAll_other rest _ _ hn.1, Put_NoExpiration_items]
      exact mapGet_mapSet_self _ _ _
    · rw [h]
      exact ih _ hn.2 h1

theorem length_putAll {α : Type} (ws : List (Int × String × Option α))
    (c : hashCache α) (hn : (ws.map (fun w => w.2.1)).Nodup)
    (hfresh : ∀ k ∈ ws.map (fun w => w.2.1), mapGet c.items k = none) :
    (putAll c ws).items.length = c.items.length + ws.length := by
  induction ws generalizing c with
  | nil => rfl
  | cons w rest ih =>
    simp only [List.map_cons, List.nodup_cons] at hn
    have h : putAll c (w :: rest) = putAll (Put c w.1 w.2.1 w.2.2 NoExpiration).cache rest := rfl
    have hw : mapGet c.items w.2.1 = none := hfresh _ (by simp)
    have hfresh2 : ∀ k ∈ rest.map (fun w => w.2.1),
        mapGet (Put c w.1 w.2.1 w.2.2 NoExpiration).cache.items k = none := by
      intro k hk
      have hne : k ≠ w.2.1 := fun e => hn.1 (e ▸ hk)
      rw [Put_NoExpiration_items, mapGet_mapSet_ne _ _ _ _ hne]
      exact hfresh k (by simp [hk])
    rw [h, ih _ hn.2 hfresh2, Put_NoExpiration_items, length_mapSet, hw]
    simp only [Option.isNone_none, if_true, List.length_cons]
    omega

theorem putAll_distinct {α : Type} (D ci : Duration) (ws : List (Int × String × Option α))
    (hn : (ws.map (fun w => w.2.1)).Nodup) :
    (Count (putAll (NewHashCache α D ci) ws)).ret = ws.length ∧
    ∀ w ∈ ws, ∀ now : Int, (Get (putAll (NewHashCache α D ci) ws) now w.2.1).ret = (w.2.2, true) := by
  constructor
  · show (putAll (NewHashCache α D ci) ws).items.length = ws.length
    have hfresh : ∀ k ∈ ws.map (fun w => w.2.1),
        mapGet (NewHashCache α D ci).items k = none := fun _ _ => rfl
    rw [length_putAll ws (NewHashCache α D ci) hn hfresh]
    simp [NewHashCache]
  · intro w hw now
    rw [Get_of_mapGet _ now _ _ (mapGet_putAll_mem ws _ hn w hw)]
    have he : (⟨w.2.2, NoExpiration⟩ : item α).expired now = false := by
      rw [expired_eq_false_iff]
      exact Or.inl rfl
    simp [he]

/-! ## Reads -/

/-- C1. `Get(k)` returns `(v, true)` exactly when `k` is in `items` with value `v`
and its entry is not expired at `now` (the expiration is `NoExpiration`, or `now`
is not past the stored instant); otherwise it returns `(nil, false)`. In both
cases the cache, with its items and its three listener lists, is left as it was
(an expired entry is not deleted) and no listener is invoked. -/
theorem Get_spec {α : Type} (c : hashCache α) (k : String) (now : Int) :
    (∀ v : Option α, (Get c now k).ret = (v, true) ↔
      ∃ it, mapGet c.items k = some it ∧ it.value = v ∧
        (it.expiration = NoExpiration ∨ ¬ now > it.expiration)) ∧
    ((¬ ∃ it, mapGet c.items k = some it ∧
        (it.expiration = NoExpiration ∨ ¬ now > it.expiration)) →
      (Get c now k).ret = (none, false)) ∧
    (Get c now k).cache = c ∧
    (Get c now k).cache.items = c.items ∧
    (Get c now k).cache.putListeners = c.putListeners ∧
    (Get c now k).cache.removeListeners = c.removeListeners ∧
    (Get c now k).cache.expirationListeners = c.expirationListeners ∧
    (Get c now k).calls = [] := by
  cases hg : mapGet c.items k with
  | none => simp [Get, hg]
  | some it =>
    cases he : it.expired now with
    | true =>
      have h := (expired_eq_true_iff it now).1 he
      simp only [Get, hg, he, if_true, Prod.mk.injEq, Bool.false_eq_true, and_false, false_iff,
        Option.some.injEq, and_true, implies_true, true_and]
      rintro v ⟨it1, rfl, -, h1⟩
      rcases h1 with h1 | h1
      · exact h.1 h1
      · exact h1 h.2
    | false =>
      have h := (expired_eq_false_iff it now).1 he
      simp only [Get, hg, he, Bool.false_eq_true, if_false, Prod.mk.injEq, and_true,
        Option.some.injEq, true_and]
      refine ⟨?_, ?_⟩
      · intro v
        constructor
        · intro hv
          exact ⟨it, rfl, hv, h⟩
        · rintro ⟨it1, rfl, hv, -⟩
          exact hv
      · intro hn
        exact absurd ⟨it, rfl, h⟩ hn

/-! ## Expiration of a written entry -/

/-- C2. After `Put(k, v, d)` at instant `t0` (a clock reading at or after the Unix
epoch) with `d` positive and `t0 + d` not overflowing, in every later state in
which `k` still holds the entry that `Put` wrote: `Get(k)` at an instant `t` with
`t - t0 < d` returns `(v, true)`; at an instant `t` with `t - t0 > d` it returns
not-found although the entry is still physically in `items` (nothing swept it,
and `Get` itself leaves the cache as it was). -/
theorem Put_then_Get_ttl {α : Type} (c c2 : hashCache α) (k : String) (v : Option α)
    (d t0 t : Int) (hd : 0 < d) (ht0 : 0 ≤ t0) (hov : t0 + d < 2 ^ 63)
    (hc2 : mapGet c2.items k = mapGet (Put c t0 k v d).cache.items k) :
    (t - t0 < d → (Get c2 t k).ret = (v, true)) ∧
    (t - t0 > d → (Get c2 t k).ret = (none, false) ∧
      mapGet c2.items k = some ⟨v, t0 + d⟩ ∧
      mapGet (Get c2 t k).cache.items k = some ⟨v, t0 + d⟩) := by
  have hw : wrap64 (t0 + d) = t0 + d := wrap64_of_isInt64 ⟨by omega, hov⟩
  have hitem : newItem v d c.defaultExpiration t0 = ⟨v, t0 + d⟩ := by
    have h1 : d ≠ NoExpiration := by unfold NoExpiration; omega
    have h2 : d ≠ DefaultExpiration := by unfold DefaultExpiration; omega
    simp [newItem, h1, h2, hw]
  have hget : mapGet c2.items k = some ⟨v, t0 + d⟩ := by
    rw [hc2, Put, put_cache, ← hitem]
    exact mapGet_mapSet_self _ _ _
  rw [Get_of_mapGet c2 t k _ hget]
  constructor
  · intro h
    have he : (⟨v, t0 + d⟩ : item α).expired t = false := by
      rw [expired_eq_false_iff]
      right
      simp only [gt_iff_lt, not_lt]
      omega
    simp [he]
  · intro h
    have he : (⟨v, t0 + d⟩ : item α).expired t = true := by
      rw [expired_eq_true_iff]
      refine ⟨?_, ?_⟩
      · show t0 + d ≠ -1
        omega
      · show t > t0 + d
        omega
    simp [he, hget]

theorem Put_then_Get_ttl_witness :
    (Get (Put (NewHashCache Nat 60 0) 100 "a" (some 7) 5).cache 103 "a").ret = (some 7, true) ∧
    (Get (Put (NewHashCache Nat 60 0) 100 "a" (some 7) 5).cache 106 "a").ret = (none, false) ∧
    (Count (Put (NewHashCache Nat 60 0) 100 "a" (some 7) 5).cache).ret = 1 :=
  ⟨(Put_then_Get_ttl (NewHashCache Nat 60 0) _ "a" (some 7) 5 100 103
      (by decide) (by decide) (by decide) rfl).1 (by decide),
   ((Put_then_Get_ttl (NewHashCache Nat 60 0) _ "a" (some 7) 5 100 106
      (by decide) (by decide) (by decide) rfl).2 (by decide)).1,
   by decide⟩

/-- C3. After `Put(k, v, NoExpiration)`, in every later state in which `k` still
holds the entry that `Put` wrote (no write to `k`, no `Remove(k)`, no `Clear`),
at every instant: the entry does not report expired, `Get(k)` returns
`(v, true)`, `Exists(k)` is true, and `DeleteExpired` leaves the entry of `k` in
place, so the same holds again after any number of sweeps. -/
theorem Put_NoExpiration_never_expires {α : Type} (c c2 : hashCache α) (k : String)
    (v : Option α) (t0 t : Int) (hwf : WF c2)
    (hc2 : mapGet c2.items k = mapGet (Put c t0 k v NoExpiration).cache.items k) :
    (∀ it, mapGet c2.items k = some it → it.expired t = false) ∧
    (Get c2 t k).ret = (v, true) ∧
    (Exists c2 t k).ret = true ∧
    mapGet (DeleteExpired c2 t).cache.items k = mapGet c2.items k ∧
    mapGet (DeleteExpired c2 t).cache.items k =
      mapGet (Put c t0 k v NoExpiration).cache.items k := by
  have hitem : newItem v NoExpiration c.defaultExpiration t0 = ⟨v, NoExpiration⟩ := by
    simp [newItem]
  have hput : mapGet (Put c t0 k v NoExpiration).cache.items k = some ⟨v, NoExpiration⟩ := by
    rw [Put, put_cache, ← hitem]
    exact mapGet_mapSet_self _ _ _
  have hget : mapGet c2.items k = some ⟨v, NoExpiration⟩ := by rw [hc2, hput]
  have he : (⟨v, NoExpiration⟩ : item α).expired t = false := by
    rw [expired_eq_false_iff]
    exact Or.inl rfl
  have hsweep : mapGet (DeleteExpired c2 t).cache.items k = mapGet c2.items k := by
    rw [DeleteExpired_items c2 t hwf, mapGet_filter _ _ _ hwf, hget]
    simp [Option.filter, he]
  refine ⟨?_, ?_, ?_, hsweep, ?_⟩
  · intro it hit
    rw [hget] at hit
    cases hit
    exact he
  · rw [Get_of_mapGet c2 t k _ hget]
    simp [he]
  · rw [Exists_of_mapGet c2 t k _ hget]
    simp [he]
  · rw [hsweep, hc2]

theorem Put_NoExpiration_never_expires_witness :
    (Get (Put (NewHashCache Nat 60 0) 100 "a" (some 7) NoExpiration).cache 1000000 "a").ret
      = (some 7, true) ∧
    (Exists (Put (NewHashCache Nat 60 0) 100 "a" (some 7) NoExpiration).cache 1000000 "a").ret
      = true :=
  ⟨(Put_NoExpiration_never_expires (NewHashCache Nat 60 0) _ "a" (some 7) 100 1000000
      (by decide) rfl).2.1,
   (Put_NoExpiration_never_expires (NewHashCache Nat 60 0) _ "a" (some 7) 100 1000000
      (by decide) rfl).2.2.1⟩

/-! ## Visibility across the read operations -/

/-- C4. In a cache whose map holds each key once, at every instant: `Exists(k)` is
true iff `Get(k)` reports found iff `k` occurs in `Keys()` iff `ForEach` with
the always-continue recording visitor visits `k`, and the value it visits `k`
with is the one `Get` returns. `Keys()` and `Values()` have the same length and
`Keys()` holds no key twice. A freshly constructed cache has `Exists(k)` false
and `Get(k)` not-found for every key. -/
theorem visibility_agrees {α : Type} (c : hashCache α) (k : String) (now : Int) (hwf : WF c) :
    ((Exists c now k).ret = true ↔ (Get c now k).ret.2 = true) ∧
    ((Get c now k).ret.2 = true ↔ k ∈ (Keys c now).ret) ∧
    (k ∈ (Keys c now).ret ↔ ∃ v, (k, v) ∈ (ForEach c now recordAll []).ret) ∧
    (∀ v, (k, v) ∈ (ForEach c now recordAll []).ret ↔ (Get c now k).ret = (v, true)) ∧
    (Keys c now).ret.length = (Values c now).ret.length ∧
    (Keys c now).ret.Nodup ∧
    (∀ (D ci : Duration) (k2 : String) (t : Int),
      (Exists (NewHashCache α D ci) t k2).ret = false ∧
      (Get (NewHashCache α D ci) t k2).ret = (none, false)) := by
  have hvis : ∀ v, (k, v) ∈ (ForEach c now recordAll []).ret ↔
      (Get c now k).ret = (v, true) := by
    intro v
    rw [ForEach_recordAll_ret, Get_ret_iff]
    constructor
    · intro h
      obtain ⟨p, hp, hpe⟩ := List.mem_map.1 h
      obtain ⟨hp1, hp2⟩ := List.mem_filter.1 hp
      obtain ⟨k1, it⟩ := p
      simp only [Prod.mk.injEq] at hpe
      obtain ⟨rfl, rfl⟩ := hpe
      exact ⟨it, mapGet_of_mem _ _ _ hwf hp1, rfl, by simpa using hp2⟩
    · rintro ⟨it, hit, rfl, he⟩
      exact List.mem_map.2 ⟨(k, it), List.mem_filter.2 ⟨mem_of_mapGet _ _ _ hit, by simp [he]⟩, rfl⟩
  have hkeys : k ∈ (Keys c now).ret ↔ ∃ v, (k, v) ∈ (ForEach c now recordAll []).ret := by
    rw [Keys_ret, ForEach_recordAll_ret]
    constructor
    · intro h
      obtain ⟨p, hp, hpe⟩ := List.mem_map.1 h
      exact ⟨p.2.value, List.mem_map.2 ⟨p, hp, by rw [← hpe]⟩⟩
    · rintro ⟨v, h⟩
      obtain ⟨p, hp, hpe⟩ := List.mem_map.1 h
      exact List.mem_map.2 ⟨p, hp, (Prod.mk.inj hpe).1⟩
  have hfound : (Get c now k).ret.2 = true ↔ ∃ v, (Get c now k).ret = (v, true) := by
    constructor
    · intro h
      exact ⟨(Get c now k).ret.1, Prod.ext rfl h⟩
    · rintro ⟨v, h⟩
      rw [h]
  refine ⟨?_, ?_, hkeys, hvis, ?_, ?_, ?_⟩
  · rw [Exists_ret_iff, Get_found_iff]
  · rw [hkeys, hfound]
    exact exists_congr (fun v => (hvis v).symm)
  · rw [Keys_ret, Values_ret, List.length_map, List.length_map]
  · rw [Keys_ret]
    exact nodup_keys_filter _ _ hwf
  · intro D ci k2 t
    exact ⟨rfl, rfl⟩

theorem visibility_agrees_witness :
    ("a" ∈ (Keys (Put (NewHashCache Nat 60 0) 100 "a" (some 7) 5).cache 103).ret ↔
      ∃ v, ("a", v) ∈
        (ForEach (Put (NewHashCache Nat 60 0) 100 "a" (some 7) 5).cache 103 recordAll []).ret) ∧
    (Keys (Put (NewHashCache Nat 60 0) 100 "a" (some 7) 5).cache 103).ret = ["a"] :=
  ⟨(visibility_agrees (Put (NewHashCache Nat 60 0) 100 "a" (some 7) 5).cache "a" 103
      (by decide)).2.2.1, by decide⟩

/-- C5. `Count()` is the number of entries physically in `items`, the expired ones
included, while `Keys()`, `Values()` and `ForEach` list the unexpired entries
only: `Keys()` is the keys, `Values()` the values and the pairs an
always-continue `ForEach` visits the key/value pairs of exactly the entries of
`items` that are not expired, in range order, and whatever visitor `ForEach`
is given, every call it makes is on an unexpired entry. At every instant
`Count()` is `len(Keys())` plus the number of entries in `items` that are
expired at that instant. A cache holding one entry written with an
already-expired duration and never swept has `Count() == 1` and empty `Keys()`,
`Values()` and `ForEach`. -/
theorem Count_eq_live_plus_expired {α : Type} (c : hashCache α) (now : Int) :
    (Count c).ret = c.items.length ∧
    (Count c).ret =
      (Keys c now).ret.length + (c.items.filter (fun p => p.2.expired now)).length ∧
    (Values c now).ret.length = (Keys c now).ret.length ∧
    (ForEach c now recordAll []).ret.length = (Keys c now).ret.length ∧
    (∀ k ∈ (Keys c now).ret, ∃ it, (k, it) ∈ c.items ∧ it.expired now = false) ∧
    (Keys c now).ret = (c.items.filter (fun p => !p.2.expired now)).map Prod.fst ∧
    (Values c now).ret =
      (c.items.filter (fun p => !p.2.expired now)).map (fun p => p.2.value) ∧
    (ForEach c now recordAll []).ret =
      (c.items.filter (fun p => !p.2.expired now)).map (fun p => (p.1, p.2.value)) ∧
    (∀ v ∈ (Values c now).ret, ∃ p ∈ c.items, p.2.value = v ∧ p.2.expired now = false) ∧
    (∀ p ∈ c.items, p.2.expired now = false →
      p.1 ∈ (Keys c now).ret ∧ p.2.value ∈ (Values c now).ret ∧
      (p.1, p.2.value) ∈ (ForEach c now recordAll []).ret) ∧
    (∀ (σ : Type) (consumer : σ → String → Option α → σ × Bool) (s : σ),
      ∀ kv ∈ (ForEach c now (logCalls consumer) (s, [])).ret.2,
        ∃ it, (kv.key, it) ∈ c.items ∧ it.value = kv.value ∧ it.expired now = false) ∧
    ((Count (Put (NewHashCache Nat 60 0) 100 "a" (some 7) (-5)).cache).ret = 1 ∧
      (Keys (Put (NewHashCache Nat 60 0) 100 "a" (some 7) (-5)).cache 100).ret = [] ∧
      (Values (Put (NewHashCache Nat 60 0) 100 "a" (some 7) (-5)).cache 100).ret = [] ∧
      (ForEach (Put (NewHashCache Nat 60 0) 100 "a" (some 7) (-5)).cache 100
        recordAll []).ret = []) ∧
    ((Count (Put (Put (NewHashCache Nat 60 0) 100 "a" (some 1) 5).cache
        100 "b" (some 2) 50).cache).ret = 2 ∧
      (Keys (Put (Put (NewHashCache Nat 60 0) 100 "a" (some 1) 5).cache
        100 "b" (some 2) 50).cache 110).ret = ["b"] ∧
      (Values (Put (Put (NewHashCache Nat 60 0) 100 "a" (some 1) 5).cache
        100 "b" (some 2) 50).cache 110).ret = [some 2] ∧
      (ForEach (Put (Put (NewHashCache Nat 60 0) 100 "a" (some 1) 5).cache
        100 "b" (some 2) 50).cache 110 recordAll []).ret = [("b", some 2)]) := by
  refine ⟨rfl, ?_, ?_, ?_, ?_, Keys_ret c now, Values_ret c now, ForEach_recordAll_ret c now,
    ?_, ?_, ?_, by decide, by decide⟩
  · rw [Keys_ret, List.length_map]
    show c.items.length = _
    have h := List.length_eq_length_filter_add (l := c.items) (fun p => !p.2.expired now)
    simpa using h
  · rw [Keys_ret, Values_ret, List.length_map, List.length_map]
  · rw [Keys_ret, ForEach_recordAll_ret, List.length_map, List.length_map]
  · intro k hk
    rw [Keys_ret] at hk
    obtain ⟨p, hp, hpe⟩ := List.mem_map.1 hk
    obtain ⟨hp1, hp2⟩ := List.mem_filter.1 hp
    exact ⟨p.2, by rw [← hpe]; exact hp1, by simpa using hp2⟩
  · intro v hv
    rw [Values_ret] at hv
    obtain ⟨p, hp, hpe⟩ := List.mem_map.1 hv
    obtain ⟨hp1, hp2⟩ := List.mem_filter.1 hp
    exact ⟨p, hp1, hpe, by simpa using hp2⟩
  · intro p hp he
    have hmem : p ∈ c.items.filter (fun p => !p.2.expired now) :=
      List.mem_filter.2 ⟨hp, by simp [he]⟩
    rw [Keys_ret, Values_ret, ForEach_recordAll_ret]
    exact ⟨List.mem_map.2 ⟨p, hmem, rfl⟩, List.mem_map.2 ⟨p, hmem, rfl⟩,
      List.mem_map.2 ⟨p, hmem, rfl⟩⟩
  · intro σ consumer s kv hkv
    obtain ⟨rest, hrest⟩ :=
      visitLoop_logCalls_prefix consumer (liveSnapshot now c.items) s []
    have hin : kv ∈ liveSnapshot now c.items := by
      have h : kv ∈ (visitLoop (logCalls consumer) (liveSnapshot now c.items) (s, [])).2 ++
          rest := List.mem_append_left _ hkv
      rw [← hrest] at h
      simpa using h
    rw [liveSnapshot_eq] at hin
    obtain ⟨p, hp, hpe⟩ := List.mem_map.1 hin
    obtain ⟨hp1, hp2⟩ := List.mem_filter.1 hp
    rw [← hpe]
    exact ⟨p.2, hp1, rfl, by simpa using hp2⟩

/-! ## Raw expiration reads -/

/-- C6. `GetExpiration(k)` reports found iff `k` is physically in `items`, whether
or not its entry is expired, and then returns the stored expiration: the
absolute instant `newItem` computed, or `NoExpiration`. It returns `(0, false)`
when `k` is absent. For an expired entry that has not been swept it reports
found while `Get` and `Exists` report not-found. -/
theorem GetExpiration_spec {α : Type} (c : hashCache α) (k : String) (now : Int) :
    ((GetExpiration c k).ret.2 = true ↔ ∃ it, mapGet c.items k = some it) ∧
    (∀ it, mapGet c.items k = some it → (GetExpiration c k).ret = (it.expiration, true)) ∧
    (mapGet c.items k = none → (GetExpiration c k).ret = (0, false)) ∧
    (∀ it, mapGet c.items k = some it → it.expired now = true →
      (GetExpiration c k).ret = (it.expiration, true) ∧
      (Get c now k).ret = (none, false) ∧ (Exists c now k).ret = false) ∧
    (∀ (v : Option α) (e : Duration) (t0 : Int),
      (GetExpiration (Put c t0 k v e).cache k).ret =
        ((newItem v e c.defaultExpiration t0).expiration, true)) ∧
    (GetExpiration c k).cache = c ∧ (GetExpiration c k).calls = [] := by
  have hsome : ∀ it, mapGet c.items k = some it →
      (GetExpiration c k).ret = (it.expiration, true) := by
    intro it hit
    simp [GetExpiration, hit]
  refine ⟨?_, hsome, ?_, ?_, ?_, ?_, ?_⟩
  · cases hg : mapGet c.items k with
    | none => simp [GetExpiration, hg]
    | some it => simp [GetExpiration, hg]
  · intro hg
    simp [GetExpiration, hg]
  · intro it hit he
    refine ⟨hsome it hit, ?_, ?_⟩
    · rw [Get_of_mapGet c now k it hit]
      simp [he]
    · rw [Exists_of_mapGet c now k it hit]
      simp [he]
  · intro v e t0
    have h : mapGet (Put c t0 k v e).cache.items k =
        some (newItem v e c.defaultExpiration t0) := by
      rw [Put, put_cache]
      exact mapGet_mapSet_self _ _ _
    simp [GetExpiration, h]
  · cases hg : mapGet c.items k <;> simp [GetExpiration, hg]
  · cases hg : mapGet c.items k <;> simp [GetExpiration, hg]

/-- C7. `GetExpectedExpiration(k)` reads the clock twice on its entry: `now1` in
`item.expired()`, then `now2` in `item.expectedExpiration()`. It returns
`(0, false)` when `k` is not in `items`; `(NoExpiration, true)` when the entry
never expires; `(Expired, true)` when the entry is expired at `now1`; and
otherwise `(expiresAt - now2, true)`, computed as the `int64` difference. When
the entry is still unexpired at `now2` this is the exact remaining time. When
the entry expires between the two readings the result is a negative duration
with found true, which is neither `Expired` nor a remaining time: readings 105
and 106 on an entry that expires at 105 give `(-1, true)`, the value of
`NoExpiration`, and readings 105 and 177 give `(-72, true)`. -/
theorem GetExpectedExpiration_spec {α : Type} (c : hashCache α) (k : String)
    (now1 now2 : Int) :
    (mapGet c.items k = none → (GetExpectedExpiration c now1 now2 k).ret = (0, false)) ∧
    (∀ it, mapGet c.items k = some it → it.expiration = NoExpiration →
      (GetExpectedExpiration c now1 now2 k).ret = (NoExpiration, true)) ∧
    (∀ it, mapGet c.items k = some it → it.expired now1 = true →
      (GetExpectedExpiration c now1 now2 k).ret = (Expired, true)) ∧
    (∀ it, mapGet c.items k = some it → it.expiration ≠ NoExpiration →
      it.expired now1 = false →
      (GetExpectedExpiration c now1 now2 k).ret = (wrap64 (it.expiration - now2), true)) ∧
    (∀ it, mapGet c.items k = some it → it.expiration ≠ NoExpiration → now1 ≤ now2 →
      it.expired now2 = false → isInt64 it.expiration → 0 ≤ now2 →
      (GetExpectedExpiration c now1 now2 k).ret = (it.expiration - now2, true)) ∧
    (∀ it, mapGet c.items k = some it → it.expired now1 = false →
      it.expired now2 = true → isInt64 it.expiration → 0 ≤ now1 → isInt64 now2 →
      (GetExpectedExpiration c now1 now2 k).ret = (it.expiration - now2, true) ∧
      (GetExpectedExpiration c now1 now2 k).ret.1 < 0 ∧
      (Get c now2 k).ret = (none, false)) ∧
    ((GetExpiration (Put (NewHashCache Nat 60 0) 100 "a" (some 7) 5).cache "a").ret
        = (105, true) ∧
      (GetExpectedExpiration (Put (NewHashCache Nat 60 0) 100 "a" (some 7) 5).cache
        105 106 "a").ret = (NoExpiration, true) ∧
      (GetExpectedExpiration (Put (NewHashCache Nat 60 0) 100 "a" (some 7) 5).cache
        105 177 "a").ret = (-72, true)) ∧
    (GetExpectedExpiration c now1 now2 k).cache = c ∧
    (GetExpectedExpiration c now1 now2 k).calls = [] := by
  have hlive : ∀ it, mapGet c.items k = some it → it.expiration ≠ NoExpiration →
      it.expired now1 = false →
      (GetExpectedExpiration c now1 now2 k).ret = (wrap64 (it.expiration - now2), true) := by
    intro it hit hne he
    simp [GetExpectedExpiration, hit, hne, he, item.expectedExpiration]
  refine ⟨?_, ?_, ?_, hlive, ?_, ?_, by decide, ?_, ?_⟩
  · intro hg
    simp [GetExpectedExpiration, hg]
  · intro it hit hne
    simp [GetExpectedExpiration, hit, hne]
  · intro it hit he
    have hne := ((expired_eq_true_iff it now1).1 he).1
    simp [GetExpectedExpiration, hit, hne, he]
  · intro it hit hne hle he2 hr hnow
    have he1 : it.expired now1 = false := by
      cases h : it.expired now1 with
      | false => rfl
      | true =>
        rw [expired_mono it now1 now2 hle h] at he2
        exact absurd he2 (by decide)
    rw [hlive it hit hne he1]
    have h2 : ¬ now2 > it.expiration := by
      rcases (expired_eq_false_iff it now2).1 he2 with h | h
      · exact absurd h hne
      · exact h
    have hw : wrap64 (it.expiration - now2) = it.expiration - now2 := by
      apply wrap64_of_isInt64
      unfold isInt64 at hr ⊢
      omega
    rw [hw]
  · intro it hit he1 he2 hr hnow1 hr2
    obtain ⟨v, x⟩ := it
    revert x
    intro (x : Int) hit he1 he2 hr
    simp only at hr
    unfold isInt64 at hr hr2
    have hne : x ≠ NoExpiration := ((expired_eq_true_iff _ now2).1 he2).1
    have hlt : now2 > x := ((expired_eq_true_iff _ now2).1 he2).2
    have hge : ¬ now1 > x := by
      rcases (expired_eq_false_iff _ now1).1 he1 with h | h
      · exact absurd h hne
      · exact h
    have hw : wrap64 (x - now2) = x - now2 := by
      apply wrap64_of_isInt64
      unfold isInt64
      omega
    have hret := hlive _ hit hne he1
    simp only [hw] at hret
    rw [hret, Get_of_mapGet c now2 k _ hit]
    refine ⟨rfl, ?_, by simp [he2]⟩
    show x - now2 < 0
    omega
  · cases hg : mapGet c.items k with
    | none => simp [GetExpectedExpiration, hg]
    | some it =>
      simp only [GetExpectedExpiration, hg]
      split
      · rfl
      · split <;> rfl
  · cases hg : mapGet c.items k with
    | none => simp [GetExpectedExpiration, hg]
    | some it =>
      simp only [GetExpectedExpiration, hg]
      split
      · rfl
      · split <;> rfl

/-! ## Conditional writes -/

/-- C8. When `k` is not visible at `t1` (absent or expired), `PutIfAbsent(k, v1, e1)`
returns true and does what `Put(k, v1, e1)` does, so `k` holds a fresh entry
with value `v1`. If `k` is unexpired at the instant `t2` of a following
`PutIfAbsent(k, v2, e2)`, that call returns false, leaves the whole cache as it
was (the entry of `k` with value `v1` and its expiration, and every other
entry) and invokes no listener. -/
theorem PutIfAbsent_twice {α : Type} (c : hashCache α) (k : String) (v1 v2 : Option α)
    (e1 e2 : Duration) (t1 t2 : Int) (hinv : (Exists c t1 k).ret = false) :
    (PutIfAbsent c t1 k v1 e1).ret = true ∧
    (PutIfAbsent c t1 k v1 e1).cache = (Put c t1 k v1 e1).cache ∧
    (PutIfAbsent c t1 k v1 e1).calls = (Put c t1 k v1 e1).calls ∧
    mapGet (PutIfAbsent c t1 k v1 e1).cache.items k =
      some (newItem v1 e1 c.defaultExpiration t1) ∧
    (newItem v1 e1 c.defaultExpiration t1).value = v1 ∧
    ((Exists (PutIfAbsent c t1 k v1 e1).cache t2 k).ret = true →
      (PutIfAbsent (PutIfAbsent c t1 k v1 e1).cache t2 k v2 e2).ret = false ∧
      (PutIfAbsent (PutIfAbsent c t1 k v1 e1).cache t2 k v2 e2).cache =
        (PutIfAbsent c t1 k v1 e1).cache ∧
      (PutIfAbsent (PutIfAbsent c t1 k v1 e1).cache t2 k v2 e2).calls = [] ∧
      (Get (PutIfAbsent (PutIfAbsent c t1 k v1 e1).cache t2 k v2 e2).cache t2 k).ret =
        (v1, true)) := by
  have h1 := PutIfAbsent_of_hidden c t1 k v1 e1 hinv
  have hval : (newItem v1 e1 c.defaultExpiration t1).value = v1 := by
    unfold newItem
    split <;> rfl
  have hget : mapGet (PutIfAbsent c t1 k v1 e1).cache.items k =
      some (newItem v1 e1 c.defaultExpiration t1) := by
    rw [h1]
    show mapGet (put c t1 k v1 e1).cache.items k = _
    rw [put_cache]
    exact mapGet_mapSet_self _ _ _
  refine ⟨by rw [h1], by rw [h1]; rfl, by rw [h1]; rfl, hget, hval, ?_⟩
  intro hex
  rw [PutIfAbsent_of_visible _ t2 k v2 e2 hex]
  refine ⟨rfl, rfl, rfl, ?_⟩
  show (Get (PutIfAbsent c t1 k v1 e1).cache t2 k).ret = (v1, true)
  rw [Exists_of_mapGet _ t2 k _ hget] at hex
  rw [Get_of_mapGet _ t2 k _ hget]
  have he : (newItem v1 e1 c.defaultExpiration t1).expired t2 = false := by
    simpa using hex
  simp [he, hval]

theorem PutIfAbsent_twice_witness :
    (PutIfAbsent (NewHashCache Nat 60 0) 100 "a" (some 1) 50).ret = true ∧
    (PutIfAbsent (PutIfAbsent (NewHashCache Nat 60 0) 100 "a" (some 1) 50).cache
      101 "a" (some 2) 50).ret = false ∧
    (Get (PutIfAbsent (PutIfAbsent (NewHashCache Nat 60 0) 100 "a" (some 1) 50).cache
      101 "a" (some 2) 50).cache 101 "a").ret = (some 1, true) :=
  ⟨(PutIfAbsent_twice (NewHashCache Nat 60 0) "a" (some 1) (some 2) 50 50 100 101
      (by decide)).1,
   ((PutIfAbsent_twice (NewHashCache Nat 60 0) "a" (some 1) (some 2) 50 50 100 101
      (by decide)).2.2.2.2.2 (by decide)).1,
   ((PutIfAbsent_twice (NewHashCache Nat 60 0) "a" (some 1) (some 2) 50 50 100 101
      (by decide)).2.2.2.2.2 (by decide)).2.2.2⟩

/-- C9. `PutIfExists(k, v, e)` returns true iff `Exists(k)` is true at `now`, that
is iff `k` is in `items` and unexpired; when it returns true the cache it leaves
and the listener invocations are exactly those of `Put(k, v, e)`; when it
returns false (`k` absent, or expired and not swept) the cache is unchanged and
no listener is invoked. -/
theorem PutIfExists_spec {α : Type} (c : hashCache α) (k : String) (v : Option α)
    (e : Duration) (now : Int) :
    ((PutIfExists c now k v e).ret = true ↔ (Exists c now k).ret = true) ∧
    ((Exists c now k).ret = true ↔
      ∃ it, mapGet c.items k = some it ∧ it.expired now = false) ∧
    ((PutIfExists c now k v e).ret = true →
      (PutIfExists c now k v e).cache = (Put c now k v e).cache ∧
      (PutIfExists c now k v e).calls = (Put c now k v e).calls) ∧
    ((PutIfExists c now k v e).ret = false →
      (PutIfExists c now k v e).cache = c ∧
      (PutIfExists c now k v e).cache.items = c.items ∧
      (PutIfExists c now k v e).calls = []) := by
  refine ⟨?_, Exists_ret_iff c now k, ?_, ?_⟩
  · rcases Bool.eq_false_or_eq_true (Exists c now k).ret with hex | hex
    · rw [PutIfExists_of_visible c now k v e hex, hex]
    · rw [PutIfExists_of_hidden c now k v e hex, hex]
  · rcases Bool.eq_false_or_eq_true (Exists c now k).ret with hex | hex
    · rw [PutIfExists_of_visible c now k v e hex]
      intro _
      exact ⟨rfl, rfl⟩
    · rw [PutIfExists_of_hidden c now k v e hex]
      intro hf
      exact absurd hf Bool.false_ne_true
  · rcases Bool.eq_false_or_eq_true (Exists c now k).ret with hex | hex
    · rw [PutIfExists_of_visible c now k v e hex]
      intro hf
      exact absurd hf.symm Bool.false_ne_true
    · rw [PutIfExists_of_hidden c now k v e hex]
      intro _
      exact ⟨rfl, rfl, rfl⟩

/-! ## Removal -/

/-- C10. In a cache whose map holds each key once, `Remove(k)` returns true iff `k`
is in `items` and unexpired at `now`. When it does: `k` is no longer in `items`,
`Count` is one less, `GetExpiration(k)` reports not-found, the entry of every
other key is unchanged, the listener lists are unchanged, and the invocations
made are exactly one call per registered on-remove listener, in registration
order, each with `k` and the value that was stored under `k`; no on-put or
on-expire listener is invoked. -/
theorem Remove_spec {α : Type} (c : hashCache α) (k : String) (now : Int) (hwf : WF c) :
    ((Remove c now k).ret = true ↔
      ∃ it, mapGet c.items k = some it ∧ it.expired now = false) ∧
    (∀ it, mapGet c.items k = some it → it.expired now = false →
      (Remove c now k).ret = true ∧
      mapGet (Remove c now k).cache.items k = none ∧
      (Count (Remove c now k).cache).ret + 1 = (Count c).ret ∧
      (GetExpiration (Remove c now k).cache k).ret = (0, false) ∧
      (∀ k2, k2 ≠ k → mapGet (Remove c now k).cache.items k2 = mapGet c.items k2) ∧
      (Remove c now k).cache.putListeners = c.putListeners ∧
      (Remove c now k).cache.removeListeners = c.removeListeners ∧
      (Remove c now k).cache.expirationListeners = c.expirationListeners ∧
      (Remove c now k).calls =
        c.removeListeners.map (fun l => ⟨EventKind.remove, l, k, it.value⟩) ∧
      (∀ call ∈ (Remove c now k).calls, call.kind = EventKind.remove)) := by
  constructor
  · constructor
    · intro hret
      by_contra hno
      have hh : ∀ it, mapGet c.items k = some it → it.expired now = true := by
        intro it hit
        by_contra he
        exact hno ⟨it, hit, by simpa using he⟩
      rw [Remove_of_hidden c now k hh] at hret
      exact Bool.false_ne_true hret
    · rintro ⟨it, hit, he⟩
      rw [Remove_of_live c now k it hit he]
  · intro it hit he
    have hr := Remove_of_live c now k it hit he
    have hgone : mapGet (Remove c now k).cache.items k = none := by
      rw [hr]
      exact mapGet_mapDelete_self _ _
    refine ⟨by rw [hr], hgone, ?_, ?_, ?_, by rw [hr], by rw [hr], by rw [hr],
      by rw [hr], ?_⟩
    · rw [hr]
      exact length_mapDelete_of_mem c.items k it hwf (mem_of_mapGet _ _ _ hit)
    · simp [GetExpiration, hgone]
    · intro k2 hk2
      rw [hr]
      exact mapGet_mapDelete_ne _ _ _ hk2
    · intro call hcall
      rw [hr] at hcall
      obtain ⟨l, -, rfl⟩ := List.mem_map.1 hcall
      rfl

theorem Remove_spec_witness :
    (Remove (AddRemoveListener (Put (NewHashCache Nat 60 0) 100 "a" (some 7) 5).cache 1).cache
      103 "a").ret = true ∧
    (Remove (AddRemoveListener (Put (NewHashCache Nat 60 0) 100 "a" (some 7) 5).cache 1).cache
      103 "a").calls = [⟨EventKind.remove, 1, "a", some 7⟩] :=
  ⟨((Remove_spec
      (AddRemoveListener (Put (NewHashCache Nat 60 0) 100 "a" (some 7) 5).cache 1).cache
      "a" 103 (by decide)).2 ⟨some 7, 105⟩ (by decide) (by decide)).1,
   ((Remove_spec
      (AddRemoveListener (Put (NewHashCache Nat 60 0) 100 "a" (some 7) 5).cache 1).cache
      "a" 103 (by decide)).2 ⟨some 7, 105⟩ (by decide) (by decide)).2.2.2.2.2.2.2.2.1⟩

/-- C11. When the entry of `k` is physically in `items` but expired at `now`,
`Remove(k)` returns false, invokes no listener at all and leaves the cache as it
was: the expired entry is still in `items` and `Count()` is unchanged. The same
holds when `k` is absent. -/
theorem Remove_hidden_spec {α : Type} (c : hashCache α) (k : String) (now : Int) :
    (∀ it, mapGet c.items k = some it → it.expired now = true →
      (Remove c now k).ret = false ∧
      (Remove c now k).calls = [] ∧
      (Remove c now k).cache = c ∧
      (Remove c now k).cache.items = c.items ∧
      mapGet (Remove c now k).cache.items k = some it ∧
      (Count (Remove c now k).cache).ret = (Count c).ret) ∧
    (mapGet c.items k = none →
      (Remove c now k).ret = false ∧
      (Remove c now k).calls = [] ∧
      (Remove c now k).cache = c ∧
      (Remove c now k).cache.items = c.items ∧
      (Count (Remove c now k).cache).ret = (Count c).ret) := by
  constructor
  · intro it hit he
    have hr : Remove c now k = ⟨false, c, []⟩ := by
      apply Remove_of_hidden
      intro it2 hit2
      rw [hit] at hit2
      cases hit2
      exact he
    rw [hr]
    exact ⟨rfl, rfl, rfl, rfl, hit, rfl⟩
  · intro hg
    have hr : Remove c now k = ⟨false, c, []⟩ := by
      apply Remove_of_hidden
      intro it2 hit2
      rw [hg] at hit2
      cases hit2
    rw [hr]
    exact ⟨rfl, rfl, rfl, rfl, rfl⟩

theorem Remove_hidden_spec_witness :
    (Remove (AddRemoveListener (Put (NewHashCache Nat 60 0) 100 "a" (some 7) 5).cache 1).cache
      106 "a").ret = false ∧
    (Remove (AddRemoveListener (Put (NewHashCache Nat 60 0) 100 "a" (some 7) 5).cache 1).cache
      106 "a").calls = [] ∧
    (Count (Remove
      (AddRemoveListener (Put (NewHashCache Nat 60 0) 100 "a" (some 7) 5).cache 1).cache
      106 "a").cache).ret = 1 :=
  ⟨((Remove_hidden_spec
      (AddRemoveListener (Put (NewHashCache Nat 60 0) 100 "a" (some 7) 5).cache 1).cache
      "a" 106).1 ⟨some 7, 105⟩ (by decide) (by decide)).1,
   ((Remove_hidden_spec
      (AddRemoveListener (Put (NewHashCache Nat 60 0) 100 "a" (some 7) 5).cache 1).cache
      "a" 106).1 ⟨some 7, 105⟩ (by decide) (by decide)).2.1,
   by decide⟩

/-! ## Sweep and reset -/

/-- C12. In a cache whose map holds each key once, `DeleteExpired` at `now` removes
from `items` exactly the entries that are expired at `now` and leaves every
other entry, value and expiration, as it was. Its listener invocations are, for
each removed entry in range order, one call of each registered on-expire
listener with that entry's key and stored value: the calls made for a removed
key are exactly one per registered listener, every call is an on-expire call
for a removed entry, and the listener lists are unchanged. -/
theorem DeleteExpired_spec {α : Type} (c : hashCache α) (now : Int) (hwf : WF c) :
    (DeleteExpired c now).cache.items = c.items.filter (fun p => !p.2.expired now) ∧
    (∀ k it, mapGet c.items k = some it → it.expired now = true →
      mapGet (DeleteExpired c now).cache.items k = none) ∧
    (∀ k it, mapGet c.items k = some it → it.expired now = false →
      mapGet (DeleteExpired c now).cache.items k = some it) ∧
    (∀ k, mapGet c.items k = none → mapGet (DeleteExpired c now).cache.items k = none) ∧
    (DeleteExpired c now).calls =
      (c.items.filter (fun p => p.2.expired now)).flatMap (fun p =>
        c.expirationListeners.map (fun l => ⟨EventKind.expire, l, p.1, p.2.value⟩)) ∧
    (∀ k it, mapGet c.items k = some it → it.expired now = true →
      (DeleteExpired c now).calls.filter (fun call => decide (call.key = k)) =
        c.expirationListeners.map (fun l => ⟨EventKind.expire, l, k, it.value⟩)) ∧
    (∀ call ∈ (DeleteExpired c now).calls,
      call.kind = EventKind.expire ∧ call.listener ∈ c.expirationListeners ∧
      ∃ it, mapGet c.items call.key = some it ∧ it.expired now = true ∧
        it.value = call.value) ∧
    (DeleteExpired c now).cache.putListeners = c.putListeners ∧
    (DeleteExpired c now).cache.removeListeners = c.removeListeners ∧
    (DeleteExpired c now).cache.expirationListeners = c.expirationListeners := by
  have hitems := DeleteExpired_items c now hwf
  have hget : ∀ k, mapGet (DeleteExpired c now).cache.items k =
      (mapGet c.items k).filter (fun it => !it.expired now) := by
    intro k
    rw [hitems, mapGet_filter _ _ _ hwf]
  refine ⟨hitems, ?_, ?_, ?_, DeleteExpired_calls c now, ?_, ?_, ?_, ?_, ?_⟩
  · intro k it hit he
    rw [hget, hit]
    simp [Option.filter, he]
  · intro k it hit he
    rw [hget, hit]
    simp [Option.filter, he]
  · intro k hk
    rw [hget, hk]
    rfl
  · intro k it hit he
    rw [DeleteExpired_calls]
    exact expire_calls_of_key c.expirationListeners now c.items k it hwf
      (mem_of_mapGet _ _ _ hit) he
  · intro call hcall
    rw [DeleteExpired_calls] at hcall
    obtain ⟨p, hp, hcp⟩ := List.mem_flatMap.1 hcall
    obtain ⟨l, hl, rfl⟩ := List.mem_map.1 hcp
    obtain ⟨hp1, hp2⟩ := List.mem_filter.1 hp
    exact ⟨rfl, hl, p.2, mapGet_of_mem _ _ _ hwf hp1, hp2, rfl⟩
  · rw [DeleteExpired_cache]
  · rw [DeleteExpired_cache]
  · rw [DeleteExpired_cache]

theorem DeleteExpired_spec_witness :
    (DeleteExpired (AddExpirationListener (AddExpirationListener
      (Put (Put (NewHashCache Nat 60 0) 100 "a" (some 1) 5).cache 100 "b" (some 2) 50).cache
      1).cache 2).cache 110).cache.items = [("b", ⟨some 2, 150⟩)] ∧
    (DeleteExpired (AddExpirationListener (AddExpirationListener
      (Put (Put (NewHashCache Nat 60 0) 100 "a" (some 1) 5).cache 100 "b" (some 2) 50).cache
      1).cache 2).cache 110).calls =
      [⟨EventKind.expire, 1, "a", some 1⟩, ⟨EventKind.expire, 2, "a", some 1⟩] :=
  ⟨(DeleteExpired_spec (AddExpirationListener (AddExpirationListener
      (Put (Put (NewHashCache Nat 60 0) 100 "a" (some 1) 5).cache 100 "b" (some 2) 50).cache
      1).cache 2).cache 110 (by decide)).1.trans (by decide),
   (DeleteExpired_spec (AddExpirationListener (AddExpirationListener
      (Put (Put (NewHashCache Nat 60 0) 100 "a" (some 1) 5).cache 100 "b" (some 2) 50).cache
      1).cache 2).cache 110 (by decide)).2.2.2.2.1.trans (by decide)⟩

/-- C13. Whatever entries, live or expired, the cache holds, `Clear()` leaves
`items` empty: `Count()` is 0 and no key is found by `Get`, `Exists` or
`GetExpiration`. It invokes no listener and leaves the three listener lists and
the default expiration as they were. -/
theorem Clear_spec {α : Type} (c : hashCache α) :
    (Clear c).cache.items = [] ∧
    (Count (Clear c).cache).ret = 0 ∧
    (∀ (k : String) (now : Int),
      (Get (Clear c).cache now k).ret = (none, false) ∧
      (Exists (Clear c).cache now k).ret = false ∧
      (GetExpiration (Clear c).cache k).ret = (0, false)) ∧
    (Clear c).calls = [] ∧
    (Clear c).cache.putListeners = c.putListeners ∧
    (Clear c).cache.removeListeners = c.removeListeners ∧
    (Clear c).cache.expirationListeners = c.expirationListeners ∧
    (Clear c).cache.defaultExpiration = c.defaultExpiration := by
  refine ⟨rfl, rfl, ?_, rfl, rfl, rfl, rfl, rfl⟩
  intro k now
  exact ⟨rfl, rfl, rfl⟩

/-! ## Enumeration with early stop -/

/-- C14. `ForEach` calls the visitor on the snapshot of the unexpired key/value
pairs, in snapshot order, and stops right after the first call on which the
visitor returns false. With the calls logged: the log is an initial segment of
the snapshot; for a visitor whose verdict depends on the pair only, it is the
pairs up to and including the first rejected one; with at least one live entry
a visitor that returns false on its first call is called exactly once; a
visitor that always returns true is called once per live entry; with no live
entry the visitor is never called. `ForEach` leaves the cache as it was. -/
theorem ForEach_spec {α σ : Type} (c : hashCache α) (now : Int)
    (consumer : σ → String → Option α → σ × Bool) (s : σ) :
    (∃ rest, liveSnapshot now c.items =
      (ForEach c now (logCalls consumer) (s, [])).ret.2 ++ rest) ∧
    (ForEach c now (logCalls consumer) (s, [])).ret.1 = (ForEach c now consumer s).ret ∧
    (∀ q : String → Option α → Bool, (∀ s1 k v, (consumer s1 k v).2 = q k v) →
      (ForEach c now (logCalls consumer) (s, [])).ret.2 =
        (liveSnapshot now c.items).takeWhile (fun kv => q kv.key kv.value) ++
          ((liveSnapshot now c.items).dropWhile (fun kv => q kv.key kv.value)).take 1) ∧
    ((∃ p ∈ c.items, p.2.expired now = false) → (∀ k v, (consumer s k v).2 = false) →
      (ForEach c now (logCalls consumer) (s, [])).ret.2.length = 1) ∧
    ((∀ s1 k v, (consumer s1 k v).2 = true) →
      (ForEach c now (logCalls consumer) (s, [])).ret.2 = liveSnapshot now c.items ∧
      (ForEach c now (logCalls consumer) (s, [])).ret.2.length =
        (c.items.filter (fun p => !p.2.expired now)).length) ∧
    ((∀ p ∈ c.items, p.2.expired now = true) →
      (ForEach c now (logCalls consumer) (s, [])).ret.2 = [] ∧
      (ForEach c now consumer s).ret = s) ∧
    (ForEach c now consumer s).cache = c ∧ (ForEach c now consumer s).calls = [] := by
  refine ⟨?_, ?_, ?_, ?_, ?_, ?_, rfl, rfl⟩
  · obtain ⟨r, hr⟩ := visitLoop_logCalls_prefix consumer (liveSnapshot now c.items) s []
    exact ⟨r, by simpa using hr⟩
  · exact visitLoop_logCalls_state consumer _ s []
  · intro q hq
    have h := visitLoop_logCalls_until consumer q hq (liveSnapshot now c.items) s []
    simpa [ForEach] using h
  · rintro ⟨p, hp, hpe⟩ hfalse
    have hne : liveSnapshot now c.items ≠ [] := by
      rw [liveSnapshot_eq]
      intro h
      have hmem : p ∈ c.items.filter (fun p => !p.2.expired now) :=
        List.mem_filter.2 ⟨hp, by simp [hpe]⟩
      rw [List.map_eq_nil_iff] at h
      rw [h] at hmem
      simp at hmem
    cases hl : liveSnapshot now c.items with
    | nil => exact absurd hl hne
    | cons kv rest =>
      simp only [ForEach, hl]
      rw [visitLoop_logCalls_stop consumer kv rest s [] (hfalse kv.key kv.value)]
      rfl
  · intro htrue
    have h := visitLoop_logCalls_all consumer htrue (liveSnapshot now c.items) s []
    have h2 : (ForEach c now (logCalls consumer) (s, [])).ret.2 = liveSnapshot now c.items := by
      simpa [ForEach] using h
    refine ⟨h2, ?_⟩
    rw [h2, liveSnapshot_eq, List.length_map]
  · intro hall
    have hnil : liveSnapshot now c.items = [] := by
      rw [liveSnapshot_eq, List.map_eq_nil_iff, List.filter_eq_nil_iff]
      intro p hp
      simp [hall p hp]
    simp [ForEach, hnil, visitLoop]

theorem ForEach_spec_witness :
    (ForEach (Put (Put (NewHashCache Nat 60 0) 100 "a" (some 1) 50).cache
      100 "b" (some 2) 50).cache 110
      (logCalls (fun (n : Nat) _ _ => (n + 1, false))) (0, [])).ret.2.length = 1 ∧
    (ForEach (Put (Put (NewHashCache Nat 60 0) 100 "a" (some 1) 50).cache
      100 "b" (some 2) 50).cache 110
      (fun (n : Nat) _ _ => (n + 1, false)) 0).ret = 1 :=
  ⟨(ForEach_spec (Put (Put (NewHashCache Nat 60 0) 100 "a" (some 1) 50).cache
      100 "b" (some 2) 50).cache 110 (fun (n : Nat) _ _ => (n + 1, false)) 0).2.2.2.1
      ⟨("a", ⟨some 1, 150⟩), by decide, by decide⟩ (fun _ _ => rfl),
   by decide⟩

/-! ## Unconditional write -/

/-- C15. For every key, value and expiration argument, sentinels and already
expired durations included, `Put(k, v, e)` makes `k` hold the fresh entry
`newItem(v, e, default)` whatever it held before, leaves the entry of every
other key unchanged, and `Count` grows by one exactly when `k` was not in
`items`. It invokes each registered on-put listener once, in registration order
(a listener added later is called last), with `(k, v)`, and no on-remove or
on-expire listener; the listener lists and the default are unchanged. -/
theorem Put_spec {α : Type} (c : hashCache α) (k : String) (v : Option α) (e : Duration)
    (now : Int) :
    mapGet (Put c now k v e).cache.items k = some (newItem v e c.defaultExpiration now) ∧
    (newItem v e c.defaultExpiration now).value = v ∧
    (∀ k2, k2 ≠ k → mapGet (Put c now k v e).cache.items k2 = mapGet c.items k2) ∧
    ((Count (Put c now k v e).cache).ret = (Count c).ret + 1 ↔ mapGet c.items k = none) ∧
    (mapGet c.items k ≠ none → (Count (Put c now k v e).cache).ret = (Count c).ret) ∧
    (Put c now k v e).calls = c.putListeners.map (fun l => ⟨EventKind.put, l, k, v⟩) ∧
    (∀ call ∈ (Put c now k v e).calls, call.kind = EventKind.put) ∧
    (∀ l, (Put (AddPutListener c l).cache now k v e).calls =
      (Put c now k v e).calls ++ [⟨EventKind.put, l, k, v⟩]) ∧
    (Put c now k v e).cache.putListeners = c.putListeners ∧
    (Put c now k v e).cache.removeListeners = c.removeListeners ∧
    (Put c now k v e).cache.expirationListeners = c.expirationListeners ∧
    (Put c now k v e).cache.defaultExpiration = c.defaultExpiration := by
  have hval : (newItem v e c.defaultExpiration now).value = v := by
    unfold newItem
    split <;> rfl
  have hlen : (Count (Put c now k v e).cache).ret =
      if (mapGet c.items k).isNone then c.items.length + 1 else c.items.length := by
    rw [Put, put_cache]
    exact length_mapSet _ _ _
  refine ⟨?_, hval, ?_, ?_, ?_, ?_, ?_, ?_, ?_, ?_, ?_, ?_⟩
  · rw [Put, put_cache]
    exact mapGet_mapSet_self _ _ _
  · intro k2 hk2
    rw [Put, put_cache]
    exact mapGet_mapSet_ne _ _ _ _ hk2
  · rw [hlen]
    show _ = c.items.length + 1 ↔ _
    cases h : mapGet c.items k <;> simp
  · intro h
    rw [hlen]
    show _ = c.items.length
    cases h2 : mapGet c.items k with
    | none => exact absurd h2 h
    | some it => simp
  · rw [Put, put_calls]
  · intro call hcall
    rw [Put, put_calls] at hcall
    obtain ⟨l, -, rfl⟩ := List.mem_map.1 hcall
    rfl
  · intro l
    rw [Put, put_calls, Put, put_calls]
    simp [AddPutListener]
  · rw [Put, put_cache]
  · rw [Put, put_cache]
  · rw [Put, put_cache]
  · rw [Put, put_cache]

/-! ## Writes with a non-positive duration -/

/-- C16, as stated, fails on the code. A write with duration `0` (`Expired`) stores
the insertion instant itself, and `expired` asks for `now` to be strictly past
it: at the insertion instant `Get` finds the entry and `Exists` is true. A
write whose negative duration brings the stored instant to `-1` stores the
`NoExpiration` sentinel: the entry is found at every instant. -/
theorem write_nonpositive_counterexample :
    (Expired ≤ 0 ∧ Expired ≠ NoExpiration ∧ Expired ≠ DefaultExpiration ∧
      (Get (Put (NewHashCache Nat 60 0) 100 "a" (some 7) Expired).cache 100 "a").ret
        = (some 7, true) ∧
      (Exists (Put (NewHashCache Nat 60 0) 100 "a" (some 7) Expired).cache 100 "a").ret
        = true) ∧
    ((-1700000000000000001 : Duration) ≤ -3 ∧
      (Put (NewHashCache Nat 60 0) 1700000000000000000 "a" (some 7)
        (-1700000000000000001)).cache.items = [("a", ⟨some 7, NoExpiration⟩)] ∧
      (Get (Put (NewHashCache Nat 60 0) 1700000000000000000 "a" (some 7)
        (-1700000000000000001)).cache 1800000000000000000 "a").ret = (some 7, true)) := by
  decide

/-- C16, amended. A write (`Put`, or a `PutIfAbsent` / `PutIfExists` that returns
true) at instant `t0` with an `int64` duration `e <= 0` other than the two
sentinels, whose stored instant `t0 + e` is not `-1`, stores `t0 + e`. While `k`
holds that entry it is physically present, and `Get(k)` reports not-found and
`Exists(k)` false at every instant strictly after `t0`, and also at `t0` itself
when `e` is negative; for `e = 0` the entry is still visible at `t0`. -/
theorem write_nonpositive_expired {α : Type} (c c2 : hashCache α) (k : String) (v : Option α)
    (e t0 t : Int) (he : e ≤ 0) (h1 : e ≠ NoExpiration)
    (h2 : e ≠ DefaultExpiration) (hr : isInt64 e) (ht0 : 0 ≤ t0) (ht0r : t0 < 2 ^ 63)
    (hs : t0 + e ≠ NoExpiration)
    (hc2 : mapGet c2.items k = mapGet (Put c t0 k v e).cache.items k) :
    mapGet c2.items k = some ⟨v, t0 + e⟩ ∧
    1 ≤ (Count c2).ret ∧
    (t0 < t → (Get c2 t k).ret = (none, false) ∧ (Exists c2 t k).ret = false) ∧
    (e < 0 → t0 ≤ t → (Get c2 t k).ret = (none, false) ∧ (Exists c2 t k).ret = false) ∧
    (e = 0 → (Get c2 t0 k).ret = (v, true) ∧ (Exists c2 t0 k).ret = true) ∧
    ((PutIfAbsent c t0 k v e).ret = true →
      (PutIfAbsent c t0 k v e).cache = (Put c t0 k v e).cache) ∧
    ((PutIfExists c t0 k v e).ret = true →
      (PutIfExists c t0 k v e).cache = (Put c t0 k v e).cache) := by
  have hw : wrap64 (t0 + e) = t0 + e := by
    apply wrap64_of_isInt64
    unfold isInt64 at hr ⊢
    omega
  have hitem : newItem v e c.defaultExpiration t0 = ⟨v, t0 + e⟩ := by
    simp [newItem, h1, h2, hw]
  have hget : mapGet c2.items k = some ⟨v, t0 + e⟩ := by
    rw [hc2, Put, put_cache, ← hitem]
    exact mapGet_mapSet_self _ _ _
  have hexp : ∀ t1 : Int, t0 + e < t1 → (⟨v, t0 + e⟩ : item α).expired t1 = true := by
    intro t1 ht1
    rw [expired_eq_true_iff]
    exact ⟨hs, ht1⟩
  have hhidden : ∀ t1 : Int, t0 + e < t1 →
      (Get c2 t1 k).ret = (none, false) ∧ (Exists c2 t1 k).ret = false := by
    intro t1 ht1
    rw [Get_of_mapGet c2 t1 k _ hget, Exists_of_mapGet c2 t1 k _ hget]
    simp [hexp t1 ht1]
  refine ⟨hget, ?_, ?_, ?_, ?_, ?_, ?_⟩
  · have hmem := mem_of_mapGet _ _ _ hget
    show 1 ≤ c2.items.length
    exact List.length_pos_of_mem hmem
  · intro ht
    exact hhidden t (by omega)
  · intro hneg ht
    exact hhidden t (by omega)
  · intro h0
    have hlive : (⟨v, t0 + e⟩ : item α).expired t0 = false := by
      rw [expired_eq_false_iff]
      right
      show ¬ t0 > t0 + e
      omega
    rw [Get_of_mapGet c2 t0 k _ hget, Exists_of_mapGet c2 t0 k _ hget]
    simp [hlive]
  · intro hret
    rcases Bool.eq_false_or_eq_true (Exists c t0 k).ret with hex | hex
    · rw [PutIfAbsent_of_visible c t0 k v e hex] at hret
      exact absurd hret Bool.false_ne_true
    · rw [PutIfAbsent_of_hidden c t0 k v e hex]
      rfl
  · intro hret
    rcases Bool.eq_false_or_eq_true (Exists c t0 k).ret with hex | hex
    · rw [PutIfExists_of_visible c t0 k v e hex]
      rfl
    · rw [PutIfExists_of_hidden c t0 k v e hex] at hret
      exact absurd hret Bool.false_ne_true

theorem write_nonpositive_expired_witness :
    (Get (Put (NewHashCache Nat 60 0) 100 "a" (some 7) (-5)).cache 100 "a").ret
      = (none, false) ∧
    (Exists (Put (NewHashCache Nat 60 0) 100 "a" (some 7) (-5)).cache 100 "a").ret = false ∧
    1 ≤ (Count (Put (NewHashCache Nat 60 0) 100 "a" (some 7) (-5)).cache).ret :=
  ⟨((write_nonpositive_expired (NewHashCache Nat 60 0) _ "a" (some 7) (-5) 100 100
      (by decide) (by decide) (by decide) (by decide) (by decide) (by decide) (by decide)
      rfl).2.2.2.1 (by decide) (by decide)).1,
   ((write_nonpositive_expired (NewHashCache Nat 60 0) _ "a" (some 7) (-5) 100 100
      (by decide) (by decide) (by decide) (by decide) (by decide) (by decide) (by decide)
      rfl).2.2.2.1 (by decide) (by decide)).2,
   (write_nonpositive_expired (NewHashCache Nat 60 0) _ "a" (some 7) (-5) 100 100
      (by decide) (by decide) (by decide) (by decide) (by decide) (by decide) (by decide)
      rfl).2.1⟩

/-! ## Writes that request the default -/

/-- C17. What `newItem` does with `DefaultExpiration`. For a default other than
`NoExpiration`, `Put(k, v, DefaultExpiration)` is `Put(k, v, default)`: same
cache, same entry, same listener invocations. For the default `NoExpiration`
the two differ: the check for `NoExpiration` comes before the default is
substituted, so `Put(k, v, DefaultExpiration)` stores the instant `now - 1`, an
entry that `Get` never finds, while `Put(k, v, NoExpiration)` stores the
sentinel and `Get` finds the entry. -/
theorem Put_DefaultExpiration_spec {α : Type} (c : hashCache α) (k : String) (v : Option α)
    (now : Int) :
    (c.defaultExpiration ≠ NoExpiration →
      Put c now k v DefaultExpiration = Put c now k v c.defaultExpiration) ∧
    (c.defaultExpiration = NoExpiration →
      mapGet (Put c now k v DefaultExpiration).cache.items k = some ⟨v, wrap64 (now - 1)⟩ ∧
      mapGet (Put c now k v NoExpiration).cache.items k = some ⟨v, NoExpiration⟩) ∧
    ((Put (NewHashCache Nat NoExpiration 0) 100 "a" (some 7) DefaultExpiration).cache.items
        = [("a", ⟨some 7, 99⟩)] ∧
      (Put (NewHashCache Nat NoExpiration 0) 100 "a" (some 7) NoExpiration).cache.items
        = [("a", ⟨some 7, NoExpiration⟩)] ∧
      (Get (Put (NewHashCache Nat NoExpiration 0) 100 "a" (some 7) DefaultExpiration).cache
        100 "a").ret = (none, false) ∧
      (Get (Put (NewHashCache Nat NoExpiration 0) 100 "a" (some 7) NoExpiration).cache
        100 "a").ret = (some 7, true)) := by
  refine ⟨?_, ?_, by decide⟩
  · intro hD
    have hitem : newItem v DefaultExpiration c.defaultExpiration now =
        newItem v c.defaultExpiration c.defaultExpiration now := by
      have h1 : DefaultExpiration ≠ NoExpiration := by decide
      by_cases h2 : c.defaultExpiration = DefaultExpiration
      · rw [h2]
      · simp [newItem, h1, hD, h2]
    unfold Put put
    simp only [hitem]
  · intro hD
    have h1 : DefaultExpiration ≠ NoExpiration := by decide
    constructor
    · rw [Put, put_cache]
      have hitem : newItem v DefaultExpiration c.defaultExpiration now =
          ⟨v, wrap64 (now - 1)⟩ := by
        simp only [newItem, h1, if_false, if_true, hD]
        rfl
      rw [← hitem]
      exact mapGet_mapSet_self _ _ _
    · rw [Put, put_cache]
      have hitem : newItem v NoExpiration c.defaultExpiration now = ⟨v, NoExpiration⟩ := by
        simp [newItem]
      rw [← hitem]
      exact mapGet_mapSet_self _ _ _

/-! ## What the expected expiration tells -/

/-- C19, as stated, fails on the code. At the instant equal to the stored
expiration the entry is not yet expired, so `Get` finds it, and the remaining
time is `0`, which is the `Expired` sentinel: the result is `Expired` for an
entry that is not expired, and it is not strictly positive. And when the entry
expires between the two clock readings of the call, the result is negative; it
can be `-1`, the `NoExpiration` sentinel, for an entry that does expire. -/
theorem GetExpectedExpiration_counterexample :
    (Get (Put (NewHashCache Nat 60 0) 100 "a" (some 7) 5).cache 105 "a").ret
      = (some 7, true) ∧
    (GetExpiration (Put (NewHashCache Nat 60 0) 100 "a" (some 7) 5).cache "a").ret
      = (105, true) ∧
    (GetExpectedExpiration (Put (NewHashCache Nat 60 0) 100 "a" (some 7) 5).cache
      105 105 "a").ret = (Expired, true) ∧
    ¬ 0 < (GetExpectedExpiration (Put (NewHashCache Nat 60 0) 100 "a" (some 7) 5).cache
      105 105 "a").ret.1 ∧
    (GetExpectedExpiration (Put (NewHashCache Nat 60 0) 100 "a" (some 7) 5).cache
      105 106 "a").ret = (NoExpiration, true) := by
  decide

/-- C19, amended. For a key physically in `items` with an `int64` expiration, when
the entry is expired at both clock readings of the call or at neither (as when
both are the same instant) and the second reading `now2` is at or after the
Unix epoch: the result of `GetExpectedExpiration` is `NoExpiration` only if the
entry never expires; it is `Expired` (0) only if the entry is expired at `now2`
or `now2` is exactly the stored expiration instant; an expired entry always
gives `Expired`; and for an entry that `Get` reports found at `now2` and that
has an expiration the result is the remaining time `expiresAt - now2`, which is
non-negative, zero exactly when `now2` is the stored instant and strictly
positive before it. -/
theorem GetExpectedExpiration_states {α : Type} (c : hashCache α) (k : String)
    (now1 now2 : Int) (it : item α) (hit : mapGet c.items k = some it)
    (hr : isInt64 it.expiration) (hnow : 0 ≤ now2)
    (hsame : it.expired now1 = it.expired now2) :
    (GetExpectedExpiration c now1 now2 k).ret.2 = true ∧
    ((GetExpectedExpiration c now1 now2 k).ret.1 = NoExpiration →
      it.expiration = NoExpiration) ∧
    ((GetExpectedExpiration c now1 now2 k).ret.1 = Expired →
      it.expired now2 = true ∨ now2 = it.expiration) ∧
    (it.expired now2 = true →
      (GetExpectedExpiration c now1 now2 k).ret.1 = Expired ∧
      (Get c now2 k).ret = (none, false)) ∧
    ((Get c now2 k).ret.2 = true → it.expiration ≠ NoExpiration →
      (GetExpectedExpiration c now1 now2 k).ret.1 = it.expiration - now2 ∧
      0 ≤ (GetExpectedExpiration c now1 now2 k).ret.1 ∧
      ((GetExpectedExpiration c now1 now2 k).ret.1 = 0 ↔ now2 = it.expiration) ∧
      (now2 < it.expiration → 0 < (GetExpectedExpiration c now1 now2 k).ret.1)) := by
  obtain ⟨v, x⟩ := it
  revert x
  intro (x : Int) hit hr hsame
  simp only at hr
  unfold isInt64 at hr
  have hget := Get_of_mapGet c now2 k _ hit
  by_cases hne : x = NoExpiration
  · have hret : (GetExpectedExpiration c now1 now2 k).ret = (NoExpiration, true) := by
      simp [GetExpectedExpiration, hit, hne]
    have hlive : (⟨v, x⟩ : item α).expired now2 = false := by
      rw [expired_eq_false_iff]
      exact Or.inl hne
    rw [hret]
    refine ⟨rfl, fun _ => hne, ?_, ?_, ?_⟩
    · intro h
      exact absurd h (by decide)
    · intro h
      rw [hlive] at h
      exact absurd h Bool.false_ne_true
    · intro _ h
      exact absurd hne h
  · cases he : (⟨v, x⟩ : item α).expired now2 with
    | true =>
      have he1 : (⟨v, x⟩ : item α).expired now1 = true := by rw [hsame, he]
      have hret : (GetExpectedExpiration c now1 now2 k).ret = (Expired, true) := by
        simp [GetExpectedExpiration, hit, hne, he1]
      rw [hret, hget]
      refine ⟨rfl, ?_, fun _ => Or.inl rfl, fun _ => ⟨rfl, by simp [he]⟩, ?_⟩
      · intro h
        exact absurd h (by decide)
      · intro h
        simp [he] at h
    | false =>
      have he1 : (⟨v, x⟩ : item α).expired now1 = false := by rw [hsame, he]
      have hle : now2 ≤ x := by
        rcases (expired_eq_false_iff _ now2).1 he with h | h
        · exact absurd h hne
        · simp only [gt_iff_lt, not_lt] at h
          exact h
      have hw : wrap64 (x - now2) = x - now2 := by
        apply wrap64_of_isInt64
        unfold isInt64
        omega
      have hret : (GetExpectedExpiration c now1 now2 k).ret = (x - now2, true) := by
        simp [GetExpectedExpiration, hit, hne, he1, item.expectedExpiration, hw]
      rw [hret]
      refine ⟨rfl, ?_, ?_, ?_, ?_⟩
      · intro h
        change x - now2 = -1 at h
        omega
      · intro h
        change x - now2 = 0 at h
        right
        show now2 = x
        omega
      · intro h
        exact absurd h Bool.false_ne_true
      · intro _ _
        refine ⟨rfl, ?_, ?_, ?_⟩
        · show 0 ≤ x - now2
          omega
        · show x - now2 = 0 ↔ now2 = x
          constructor
          · intro h
            omega
          · intro h
            omega
        · intro h
          change now2 < x at h
          show 0 < x - now2
          omega

theorem GetExpectedExpiration_states_witness :
    (GetExpectedExpiration (Put (NewHashCache Nat 60 0) 100 "a" (some 7) 5).cache
      103 104 "a").ret.2 = true ∧
    (GetExpectedExpiration (Put (NewHashCache Nat 60 0) 100 "a" (some 7) 5).cache
      103 104 "a").ret.1 = 1 :=
  ⟨(GetExpectedExpiration_states (Put (NewHashCache Nat 60 0) 100 "a" (some 7) 5).cache "a"
      103 104 ⟨some 7, 105⟩ (by decide) (by decide) (by decide) (by decide)).1,
   ((GetExpectedExpiration_states (Put (NewHashCache Nat 60 0) 100 "a" (some 7) 5).cache "a"
      103 104 ⟨some 7, 105⟩ (by decide) (by decide) (by decide) (by decide)).2.2.2.2
      (by decide) (by decide)).1⟩

/-! ## Active and lazy expiration agree -/

/-- C20. In a cache whose map holds each key once, a `DeleteExpired` run at `now`
changes the result of no live-view read made at `now` or later: `Get`,
`Exists`, `Keys`, `Values` and `ForEach` (with any visitor) return what they
would have returned without the sweep. Right after the sweep, at the same
instant, `Count()` equals `len(Keys())`, and a second `DeleteExpired` leaves
the cache as it is and invokes no listener. -/
theorem sweep_preserves_live_view {α σ : Type} (c : hashCache α) (now t : Int) (k : String)
    (consumer : σ → String → Option α → σ × Bool) (s : σ) (hwf : WF c) (hle : now ≤ t) :
    (Get (DeleteExpired c now).cache t k).ret = (Get c t k).ret ∧
    (Exists (DeleteExpired c now).cache t k).ret = (Exists c t k).ret ∧
    (Keys (DeleteExpired c now).cache t).ret = (Keys c t).ret ∧
    (Values (DeleteExpired c now).cache t).ret = (Values c t).ret ∧
    (ForEach (DeleteExpired c now).cache t consumer s).ret = (ForEach c t consumer s).ret ∧
    (Count (DeleteExpired c now).cache).ret = (Keys (DeleteExpired c now).cache now).ret.length ∧
    (DeleteExpired (DeleteExpired c now).cache now).cache = (DeleteExpired c now).cache ∧
    (DeleteExpired (DeleteExpired c now).cache now).calls = [] := by
  have hitems := DeleteExpired_items c now hwf
  have hget : mapGet (DeleteExpired c now).cache.items k =
      (mapGet c.items k).filter (fun it => !it.expired now) := by
    rw [hitems, mapGet_filter _ _ _ hwf]
  have hsnap : liveSnapshot t (DeleteExpired c now).cache.items = liveSnapshot t c.items := by
    rw [liveSnapshot_eq, liveSnapshot_eq, hitems, filter_live_of_swept _ _ _ hle]
  have hnone : (DeleteExpired c now).cache.items.filter (fun p => p.2.expired now) = [] := by
    rw [hitems]
    exact filter_expired_of_swept _ _
  have hagain := DeleteExpired_of_none_expired (DeleteExpired c now).cache now hnone
  refine ⟨?_, ?_, ?_, ?_, ?_, ?_, hagain.1, hagain.2⟩
  · cases hg : mapGet c.items k with
    | none =>
      rw [hg] at hget
      simp [Get, hg, hget, Option.filter]
    | some it =>
      rw [hg] at hget
      cases he : it.expired now with
      | true =>
        have het := expired_mono it now t hle he
        simp [Get, hg, hget, Option.filter, he, het]
      | false =>
        cases het : it.expired t <;> simp [Get, hg, hget, Option.filter, he, het]
  · cases hg : mapGet c.items k with
    | none =>
      rw [hg] at hget
      simp [Exists, hg, hget, Option.filter]
    | some it =>
      rw [hg] at hget
      cases he : it.expired now with
      | true =>
        have het := expired_mono it now t hle he
        simp [Exists, hg, hget, Option.filter, he, het]
      | false =>
        simp [Exists, hg, hget, Option.filter, he]
  · rw [Keys_ret, Keys_ret, hitems, filter_live_of_swept _ _ _ hle]
  · rw [Values_ret, Values_ret, hitems, filter_live_of_swept _ _ _ hle]
  · simp only [ForEach, hsnap]
  · show (DeleteExpired c now).cache.items.length = _
    rw [Keys_ret, List.length_map, hitems, filter_live_of_swept _ _ _ (le_refl now)]

theorem sweep_preserves_live_view_witness :
    (Keys (DeleteExpired
      (Put (Put (NewHashCache Nat 60 0) 100 "a" (some 1) 5).cache 100 "b" (some 2) 50).cache
      110).cache 120).ret =
    (Keys (Put (Put (NewHashCache Nat 60 0) 100 "a" (some 1) 5).cache
      100 "b" (some 2) 50).cache 120).ret ∧
    (Count (DeleteExpired
      (Put (Put (NewHashCache Nat 60 0) 100 "a" (some 1) 5).cache 100 "b" (some 2) 50).cache
      110).cache).ret = 1 :=
  ⟨(sweep_preserves_live_view
      (Put (Put (NewHashCache Nat 60 0) 100 "a" (some 1) 5).cache 100 "b" (some 2) 50).cache
      110 120 "a" (fun (n : Nat) _ _ => (n + 1, true)) 0 (by decide) (by decide)).2.2.1,
   by decide⟩

end GoCache
